import Mathlib

/-!
# Verification of the 2-3 red-black tree map (`src/map.c`, `src/comparator.c`)

This file is a shallow embedding of the C sources of the `23rbtrees` repository.

* The pointer-based red-black tree (`struct Node` with `children`, `parent`,
  `direction`, `color`) is embedded as the inductive type `Tree`.  The
  `parent` pointer and the `direction` tag are redundant encodings of the
  position of a node inside the tree; a position is embedded as a *zipper*
  path (`List PathEntry`): each entry holds the data of one ancestor, the
  direction from that ancestor to the position, and the ancestor's other
  child.  The invariant `parent->children[self->direction] == self` of the C
  representation holds by construction of this embedding.
* The bottom-up rebalance loops of `map_insert` and `map_remove`, which walk
  parent pointers, become structural recursion over the zipper path.
* A `NULL`-pointer dereference that the C code would perform is modeled by
  returning `none`; every spot marked `none` below corresponds to a concrete
  dereference in the C source that would be undefined behavior there.
* Allocation is modeled by a boolean `allocOk` passed to `map_insert`
  (`malloc` result non-`NULL` iff `allocOk = true`).
* Keys and values are type parameters `K`, `V` instead of raw byte payloads;
  the `memmove` of the value bytes (resp. key bytes) becomes replacement of
  the `v` (resp. `k`) component.  Keys are compared with a comparator
  `cmp : K → K → Int`, mirroring `Comparator` returning a C `int`.
-/

namespace RB23

/-- `enum Color` from `src/map.c` (`BLACK = 0`, `RED = 1`). -/
inductive Color where
  | black
  | red
deriving DecidableEq, Repr

/-- `enum Direction` from `src/map.c` (`LEFT = 0`, `RIGHT = 1`). -/
inductive Dir where
  | left
  | right
deriving DecidableEq, Repr

/-- `1 - direction`, the opposite direction. -/
def Dir.other : Dir → Dir
  | .left => .right
  | .right => .left

/-- `struct Node` of `src/map.c`, embedded as an inductive tree:
`children[LEFT]`/`children[RIGHT]` are the two subtrees, `color` is the
node color, and the key/value payload bytes become `k : K`, `v : V`.
`nil` is the absent child (`NULL`).  The `parent`/`direction` fields are
represented by zipper paths (`PathEntry`), not stored in the node. -/
inductive Tree (K V : Type) where
  | nil
  | node (c : Color) (k : K) (v : V) (l r : Tree K V)
deriving DecidableEq

/-- One ancestor on a parent-pointer path: the ancestor's color, key and
value, the direction from the ancestor down to the position described, and
the ancestor's other child (`children[1 - dir]`). -/
structure PathEntry (K V : Type) where
  c : Color
  k : K
  v : V
  dir : Dir
  sib : Tree K V
deriving DecidableEq

variable {K V : Type}

/-- Rebuild the node described by a path entry `e` with `t` as its
`e.dir` child (`parent->children[direction] = t`). -/
def peNode (e : PathEntry K V) (t : Tree K V) : Tree K V :=
  match e.dir with
  | .left => .node e.c e.k e.v t e.sib
  | .right => .node e.c e.k e.v e.sib t

/-- Rebuild the whole tree from a subtree and the path to its position
(innermost ancestor first). -/
def plug (t : Tree K V) : List (PathEntry K V) → Tree K V
  | [] => t
  | e :: rest => plug (peNode e t) rest

/-- `node->children[d]`.  Only consulted on non-`NULL` nodes. -/
def childD : Tree K V → Dir → Tree K V
  | .nil, _ => .nil
  | .node _ _ _ l _, .left => l
  | .node _ _ _ _ r, .right => r

/-- `node_is_black`: `NULL` is considered black. -/
def nodeIsBlackB : Tree K V → Bool
  | .nil => true
  | .node c _ _ _ _ => c = Color.black

/-- `Node_is_red`: true only for present red nodes. -/
def nodeIsRedB : Tree K V → Bool
  | .nil => false
  | .node c _ _ _ _ => c = Color.red

/-- Paint the root of a (non-`NULL`) tree black (`node->color = BLACK`). -/
def blackenRoot : Tree K V → Tree K V
  | .nil => .nil
  | .node _ k v l r => .node .black k v l r

/-- In-order list of key-value pairs stored in a tree. -/
def entries : Tree K V → List (K × V)
  | .nil => []
  | .node _ k v l r => entries l ++ (k, v) :: entries r

/-- Keys in in-order. -/
def keysT (t : Tree K V) : List K :=
  (entries t).map Prod.fst

/-- Number of nodes of a tree.  This is the denotation of `node_count` of
`src/map.c`, which counts the nodes by an iterative post-order walk
(`node_xmost_leaf` / `node_post_order_xcessor`) and visits every node
exactly once. -/
def node_count : Tree K V → Nat
  | .nil => 0
  | .node _ _ _ l r => node_count l + node_count r + 1

/-- The assert `node->color == BLACK || node->parent->color == BLACK` of
`node_check`, phrased on the parent color `pc` (`none`: no parent, no
assert). -/
def parentOkB (pc : Option Color) (c : Color) : Bool :=
  match pc with
  | none => true
  | some q => c = Color.black || q = Color.black

/-- `node_check` of `src/map.c`: recursively validates the red-black
invariants and returns the black depth, `NULL` children counting as black
depth `1`.  The C function `assert`s; the embedding returns `none` when an
assertion would fail.  `pc` is the color of the parent (`none` for the
root); the assert `node->parent->children[node->direction] == node` holds
by construction of the embedding and has no residue here. -/
def node_check (pc : Option Color) : Tree K V → Option Nat
  | .nil => some 1
  | .node c _ _ l r =>
    if parentOkB pc c && (nodeIsBlackB l || nodeIsBlackB r) then
      match node_check (some c) l, node_check (some c) r with
      | some a, some b =>
        if a = b then some (a + (if c = Color.black then 1 else 0)) else none
      | _, _ => none
    else
      none

/-- `struct Map`: the root and the live-node count.  The comparator and the
node layout are not part of the state in the typed embedding (the
comparator is passed to each operation, the layout is a byte-packing
artifact). -/
structure Map (K V : Type) where
  root : Tree K V
  count : Nat
deriving DecidableEq

/-- `map_new`: an empty map (`root = NULL`, `count = 0`). -/
def map_new : Map K V := ⟨.nil, 0⟩

/-- `map_check`: root must be black, `node_check` must pass, and the node
count must equal the stored `count`. -/
def map_checkB (m : Map K V) : Bool :=
  nodeIsBlackB m.root && (node_check none m.root).isSome
    && (node_count m.root == m.count)

/-- `map_count`. -/
def map_count (m : Map K V) : Nat := m.count

variable (cmp : K → K → Int)

/-- `map_lookup`: descend comparing the probe key against node keys; on
`0` return the stored value. -/
def map_lookup : Tree K V → K → Option V
  | .nil, _ => none
  | .node _ k v l r, key =>
    let o := cmp key k
    if o < 0 then map_lookup l key
    else if o > 0 then map_lookup r key
    else some v

/-- Result of the top-down pass shared by `map_insert` and `map_remove`:
either the decomposed node whose key compared equal (plus its path), or
the path to the `NULL` position where the key would be. -/
inductive DescRes (K V : Type) where
  | found (c : Color) (k : K) (v : V) (l r : Tree K V) (path : List (PathEntry K V))
  | notFound (path : List (PathEntry K V))
deriving DecidableEq

/-- The top-down pass of `map_insert` (lines 255–277) and, identically, of
`map_remove` (lines 359–375): go left on negative, right on positive,
stop on zero or on `NULL`, remembering the parent chain. -/
def descend (key : K) : Tree K V → List (PathEntry K V) → DescRes K V
  | .nil, path => .notFound path
  | .node c k v l r, path =>
    let o := cmp key k
    if o < 0 then descend key l (⟨c, k, v, .left, r⟩ :: path)
    else if o > 0 then descend key r (⟨c, k, v, .right, l⟩ :: path)
    else .found c k v l r path

/-- `node_rotate` (lines 152–186).  `B` is the rotated node, `CA` its
`1 - direction` child (precondition: non-`NULL`, else the C code would
dereference `NULL`: `none`), `cb` the middle grandchild.  After the
rotation `CA` occupies `B`'s slot with `B`'s former color (and direction
and parent, which are positional here), `B` takes `CA`'s former color
(`cb_color` in the source is read from `CA->color`), and `cb` keeps its
own color. -/
def node_rotate : Tree K V → Dir → Option (Tree K V)
  | .nil, _ => none
  | .node bc bk bv bl br, d =>
    match d with
    | .left =>
      match br with
      | .nil => none
      | .node cac cak cav cal car =>
        some (.node bc cak cav (.node cac bk bv bl cal) car)
    | .right =>
      match bl with
      | .nil => none
      | .node cac cak cav cal car =>
        some (.node bc cak cav cal (.node cac bk bv car br))

/-- The bottom-up pass of `map_insert` (lines 305–350), as recursion over
the zipper path of the freshly inserted / current node `x` (which is
always red, matching the `assert`).  Each iteration looks at the parent
entry `p`:

* parent red: Figure 9a normalizes the zig-zag case (`node = node->parent`
  followed by `node_rotate(node, node->direction)`), Figure 9b rotates the
  grandparent, and the Figure 9c test then finds the demoted grandparent
  as the (red) sibling, recolors, and climbs;
* parent black: only the Figure 9c test runs — red sibling: recolor and
  climb; black sibling: exit the loop, the tree is rebuilt unchanged.

A red parent that is the root makes the C code dereference
`node->parent->parent == NULL` in Figure 9b: `none`. -/
def ins_fixup (x : Tree K V) : List (PathEntry K V) → Option (Tree K V)
  | [] => some x
  | p :: rest =>
    if p.c = Color.red then
      match rest with
      | [] => none
      | g :: rest' =>
        let norm : Option (Tree K V × PathEntry K V) :=
          if p.dir ≠ g.dir then
            match node_rotate (peNode p x) g.dir with
            | some (.node tc tk tv tl tr) =>
              match g.dir with
              | .left => some (tl, ⟨tc, tk, tv, .left, tr⟩)
              | .right => some (tr, ⟨tc, tk, tv, .right, tl⟩)
            | _ => none
          else
            some (x, p)
        match norm with
        | none => none
        | some (cur, q) =>
          match node_rotate (peNode g (peNode q cur)) g.dir.other with
          | some (.node bc bk bv bl br) =>
            let sib := match g.dir with
              | .left => br
              | .right => bl
            if nodeIsRedB sib then
              let newCur : Tree K V := match g.dir with
                | .left => .node .red bk bv (blackenRoot cur) (blackenRoot sib)
                | .right => .node .red bk bv (blackenRoot sib) (blackenRoot cur)
              ins_fixup newCur rest'
            else
              some (plug (.node bc bk bv bl br) rest')
          | _ => none
    else
      if nodeIsRedB p.sib then
        let newCur : Tree K V := match p.dir with
          | .left => .node .red p.k p.v (blackenRoot x) (blackenRoot p.sib)
          | .right => .node .red p.k p.v (blackenRoot p.sib) (blackenRoot x)
        ins_fixup newCur rest
      else
        some (plug x (p :: rest))

/-- `map_insert` (lines 252–354).  Top-down pass via `descend`; on an
equal key only the value bytes are overwritten (the stored key is the
pre-existing one) and the function returns immediately.  Otherwise a new
red node is allocated (`allocOk = false` models `malloc` returning
`NULL`: report failure, tree untouched), attached, counted, rebalanced
with `ins_fixup`, and finally the root is painted black. -/
def map_insert (allocOk : Bool) (m : Map K V) (key : K) (value : V) :
    Option (Bool × Map K V) :=
  match descend cmp key m.root [] with
  | .found c k _ l r path =>
    some (true, ⟨plug (.node c k value l r) path, m.count⟩)
  | .notFound path =>
    if allocOk then
      match ins_fixup (.node .red key value .nil .nil) path with
      | none => none
      | some t => some (true, ⟨blackenRoot t, m.count + 1⟩)
    else
      some (false, m)

/-- `node_xmost_node(node, RIGHT)` on the left child, as used by
`map_remove`: walk `children[RIGHT]` to the in-order predecessor,
extending the zipper path.  Returns the predecessor's color, key, value
and left child (its right child is `NULL` by construction) and the path
from the starting subtree down to it. -/
def spineMax : Tree K V → List (PathEntry K V) →
    Option (Color × K × V × Tree K V × List (PathEntry K V))
  | .nil, _ => none
  | .node c k v l r, path =>
    match r with
    | .nil => some (c, k, v, l, path)
    | .node _ _ _ _ _ => spineMax r (⟨c, k, v, .right, l⟩ :: path)

/-- Result of one iteration body of the `map_remove` bottom-up loop from
Figure 13b on: the loop either returns with a finished subtree (`done`,
the Figure 15 branch), climbs one level (`climb`), or would dereference
`NULL` (`fail`). -/
inductive RemStep (K V : Type) where
  | done (t : Tree K V)
  | climb (t : Tree K V)
  | fail

/-- Lines 444–482 of `map_remove`: paint the sibling red (Figure 13b;
dereferences the sibling, so `fail` on `NULL`); if the sibling has a red
child, run Figures 15a (inner-nephew rotation of the sibling toward its
own direction), 15b (rotation of the parent toward the node direction)
and 15c (paint the new subtree root's children black, `fail` if either is
`NULL`), returning `done`; otherwise hand the parent subtree (with the
reddened sibling) back to the loop (`climb`). -/
def rem_inner (cur : Tree K V) (p : PathEntry K V) : RemStep K V :=
  match p.sib with
  | .nil => .fail
  | .node _ sk sv sl sr =>
    let sib1 : Tree K V := .node .red sk sv sl sr
    if nodeIsRedB sl || nodeIsRedB sr then
      let sdir := p.dir.other
      let inner15 : Option (Tree K V) :=
        if nodeIsBlackB (childD sib1 sdir) then node_rotate sib1 sdir
        else some sib1
      match inner15 with
      | none => .fail
      | some sib2 =>
        match node_rotate (peNode ⟨p.c, p.k, p.v, p.dir, sib2⟩ cur) p.dir with
        | some (.node bc bk bv bl br) =>
          match bl, br with
          | .node _ k1 v1 a b, .node _ k2 v2 e f =>
            .done (.node bc bk bv (.node .black k1 v1 a b)
              (.node .black k2 v2 e f))
          | _, _ => .fail
        | _ => .fail
    else
      .climb (peNode ⟨p.c, p.k, p.v, p.dir, sib1⟩ cur)

/-- The bottom-up pass of `map_remove` (lines 421–495) as recursion over
the path above the removed position.  `cur` is the subtree now occupying
the position with one black node too few on its paths.  Each iteration
reads the sibling (`none` if it is `NULL`); a red sibling is first
rotated away (Figure 13c), which dereferences the refreshed sibling next,
and makes the parent red so that the loop always exits this iteration;
then `rem_inner` runs the rest of the body.  On loop exit the current
node is painted black (Figures 13a). -/
def rem_fixup (cur : Tree K V) : List (PathEntry K V) → Option (Tree K V)
  | [] => some (blackenRoot cur)
  | p :: rest =>
    match p.sib with
    | .nil => none
    | .node sc _ _ _ _ =>
      if sc = Color.red then
        match node_rotate (peNode p cur) p.dir with
        | some (.node dc dk dv dl dr) =>
          match p.dir with
          | .left =>
            match dl with
            | .node pc2 pk2 pv2 _ cb =>
              let pE : PathEntry K V := ⟨pc2, pk2, pv2, .left, cb⟩
              let gE : PathEntry K V := ⟨dc, dk, dv, .left, dr⟩
              match rem_inner cur pE with
              | .fail => none
              | .done t => some (plug t (gE :: rest))
              | .climb t => some (plug (blackenRoot t) (gE :: rest))
            | .nil => none
          | .right =>
            match dr with
            | .node pc2 pk2 pv2 cb _ =>
              let pE : PathEntry K V := ⟨pc2, pk2, pv2, .right, cb⟩
              let gE : PathEntry K V := ⟨dc, dk, dv, .right, dl⟩
              match rem_inner cur pE with
              | .fail => none
              | .done t => some (plug t (gE :: rest))
              | .climb t => some (plug (blackenRoot t) (gE :: rest))
            | .nil => none
        | _ => none
      else
        match rem_inner cur p with
        | .fail => none
        | .done t => some (plug t rest)
        | .climb t =>
          match rest with
          | [] => some (blackenRoot t)
          | _ :: _ =>
            if p.c = Color.black then rem_fixup t rest
            else some (plug (blackenRoot t) rest)

/-- Lines 395–414 of `map_remove`: detach a node with at most one child.
A present child is spliced into the node's place, inheriting the node's
color (and parent/direction, positional here); otherwise the slot is
cleared and, if the removed node was black and not the root, the
bottom-up pass runs. -/
def removeAt (c : Color) (l r : Tree K V) (path : List (PathEntry K V))
    (count : Nat) : Option (Map K V) :=
  match l with
  | .node _ ck cv cl cr => some ⟨plug (.node c ck cv cl cr) path, count - 1⟩
  | .nil =>
    match r with
    | .node _ ck cv cl cr => some ⟨plug (.node c ck cv cl cr) path, count - 1⟩
    | .nil =>
      if c = Color.red then some ⟨plug .nil path, count - 1⟩
      else
        match path with
        | [] => some ⟨.nil, count - 1⟩
        | _ :: _ =>
          match rem_fixup .nil path with
          | none => none
          | some t => some ⟨t, count - 1⟩

/-- `map_remove` (lines 356–496).  Top-down pass via `descend` (absent
key: report `false`, no change).  A node with two children first receives
the key and value bytes of its in-order predecessor, and the removal is
retargeted to the predecessor.  Then `removeAt` splices the node out and
rebalances. -/
def map_remove (m : Map K V) (key : K) : Option (Bool × Map K V) :=
  match descend cmp key m.root [] with
  | .notFound _ => some (false, m)
  | .found c _ _ l r path =>
    match l, r with
    | .node lc lk lv ll lr, .node rc rk rv rl rr =>
      match spineMax (.node lc lk lv ll lr) [] with
      | none => none
      | some (pc, pk, pv, pl, rel) =>
        (removeAt pc pl .nil
          (rel ++ ⟨c, pk, pv, .left, .node rc rk rv rl rr⟩ :: path)
          m.count).map (fun m' => (true, m'))
    | _, _ => (removeAt c l r path m.count).map (fun m' => (true, m'))

end RB23

namespace RB23

variable {K V : Type}

/-- An operation of the public interface, for stating properties of
operation sequences. -/
inductive Op (K V : Type) where
  | ins (k : K) (v : V)
  | del (k : K)

/-- Run one operation (insertion with succeeding allocation). -/
def mapStep (cmp : K → K → Int) (m : Map K V) : Op K V → Option (Map K V)
  | .ins k v => (map_insert cmp true m k v).map (·.2)
  | .del k => (map_remove cmp m k).map (·.2)

/-- Run a sequence of operations on a map created by `map_new`, all
allocations succeeding.  `none` if any step would dereference `NULL`. -/
def mapExec (cmp : K → K → Int) (ops : List (Op K V)) : Option (Map K V) :=
  ops.foldlM (mapStep cmp) map_new

/-- The integer comparators of `src/comparator.c` (`_int_compare`,
`_long_compare`, …): `x < y ? -1 : (x > y ? +1 : 0)`. -/
def int_compare (x y : Int) : Int :=
  if x < y then -1 else if x > y then 1 else 0

/-- The laws §4.2/§6 require of a user comparator: a total preorder with
reflexive equality, reported through the sign of the result.  All
canonical comparators satisfy them. -/
structure LawfulCmp (cmp : K → K → Int) : Prop where
  refl : ∀ x, cmp x x = 0
  antisym : ∀ x y, cmp x y < 0 ↔ cmp y x > 0
  le_trans : ∀ x y z, cmp x y ≤ 0 → cmp y z ≤ 0 → cmp x z ≤ 0

namespace LawfulCmp

variable {cmp : K → K → Int}

theorem gt_asym (L : LawfulCmp cmp) {x y : K} (h : cmp x y > 0) : cmp y x < 0 :=
  (L.antisym y x).2 h

theorem lt_asym (L : LawfulCmp cmp) {x y : K} (h : cmp x y < 0) : cmp y x > 0 :=
  (L.antisym x y).1 h

theorem zero_symm (L : LawfulCmp cmp) {x y : K} (h : cmp x y = 0) : cmp y x = 0 := by
  rcases lt_trichotomy (cmp y x) 0 with h' | h' | h'
  · have := (L.antisym y x).1 h'; omega
  · exact h'
  · have := (L.antisym x y).2 h'; omega

theorem lt_trans (L : LawfulCmp cmp) {x y z : K} (h1 : cmp x y < 0)
    (h2 : cmp y z < 0) : cmp x z < 0 := by
  have hle : cmp x z ≤ 0 := L.le_trans x y z (le_of_lt h1) (le_of_lt h2)
  rcases eq_or_lt_of_le hle with h' | h'
  · exfalso
    have hzx : cmp z x = 0 := L.zero_symm h'
    have : cmp z y ≤ 0 := L.le_trans z x y (le_of_eq hzx) (le_of_lt h1)
    have := (L.antisym y z).1 h2
    omega
  · exact h'

theorem lt_of_eq_of_lt (L : LawfulCmp cmp) {x y z : K} (h1 : cmp x y = 0)
    (h2 : cmp y z < 0) : cmp x z < 0 := by
  have hle : cmp x z ≤ 0 := L.le_trans x y z (le_of_eq h1) (le_of_lt h2)
  rcases eq_or_lt_of_le hle with h' | h'
  · exfalso
    have hzx : cmp z x = 0 := L.zero_symm h'
    have : cmp z y ≤ 0 := L.le_trans z x y (le_of_eq hzx) (le_of_eq h1)
    have := (L.antisym y z).1 h2
    omega
  · exact h'

theorem lt_of_lt_of_eq (L : LawfulCmp cmp) {x y z : K} (h1 : cmp x y < 0)
    (h2 : cmp y z = 0) : cmp x z < 0 := by
  have hle : cmp x z ≤ 0 := L.le_trans x y z (le_of_lt h1) (le_of_eq h2)
  rcases eq_or_lt_of_le hle with h' | h'
  · exfalso
    have hzx : cmp z x = 0 := L.zero_symm h'
    have hzy : cmp z y < 0 := L.lt_of_eq_of_lt hzx h1
    have := L.zero_symm h2
    omega
  · exact h'

theorem zero_trans (L : LawfulCmp cmp) {x y z : K} (h1 : cmp x y = 0)
    (h2 : cmp y z = 0) : cmp x z = 0 := by
  rcases lt_trichotomy (cmp x z) 0 with h' | h' | h'
  · exfalso
    have := L.lt_of_eq_of_lt (L.zero_symm h1) h'
    omega
  · exact h'
  · exfalso
    have hzx := L.gt_asym h'
    have := L.lt_of_lt_of_eq hzx h1
    have := (L.antisym z y).1 this
    omega

end LawfulCmp

end RB23

namespace RB23

variable {K V : Type}

/-- The entries to the left of a position described by a path. -/
def lpart : List (PathEntry K V) → List (K × V)
  | [] => []
  | e :: rest =>
    lpart rest ++ (match e.dir with
      | .right => entries e.sib ++ [(e.k, e.v)]
      | .left => [])

/-- The entries to the right of a position described by a path. -/
def rpart : List (PathEntry K V) → List (K × V)
  | [] => []
  | e :: rest =>
    (match e.dir with
      | .left => (e.k, e.v) :: entries e.sib
      | .right => []) ++ rpart rest

theorem entries_peNode (e : PathEntry K V) (t : Tree K V) :
    entries (peNode e t) = (match e.dir with
      | .left => entries t ++ (e.k, e.v) :: entries e.sib
      | .right => entries e.sib ++ (e.k, e.v) :: entries t) := by
  cases h : e.dir <;> simp [peNode, h, entries]

theorem entries_plug (t : Tree K V) (p : List (PathEntry K V)) :
    entries (plug t p) = lpart p ++ entries t ++ rpart p := by
  induction p generalizing t with
  | nil => simp [plug, lpart, rpart]
  | cons e rest ih =>
    obtain ⟨ec, ek, ev, ed, es⟩ := e
    rw [plug, ih, entries_peNode]
    cases ed <;> simp [lpart, rpart]

theorem plug_append (t : Tree K V) (a b : List (PathEntry K V)) :
    plug t (a ++ b) = plug (plug t a) b := by
  induction a generalizing t with
  | nil => simp [plug]
  | cons e rest ih => simp [plug, ih]

theorem node_count_eq_length (t : Tree K V) :
    node_count t = (entries t).length := by
  induction t with
  | nil => simp [node_count, entries]
  | node c k v l r ihl ihr => simp [node_count, entries, ihl, ihr]; omega

variable {cmp : K → K → Int}

/-- A path steers the key `k` back to its position: every left turn was
taken on a negative comparison, every right turn on a positive one. -/
def Steers (cmp : K → K → Int) (key : K) (path : List (PathEntry K V)) : Prop :=
  ∀ e ∈ path, (e.dir = Dir.left → cmp key e.k < 0) ∧
    (e.dir = Dir.right → cmp key e.k > 0)

theorem steers_nil (key : K) : Steers cmp key ([] : List (PathEntry K V)) := by
  intro e he; cases he

theorem steers_cons {key : K} {e : PathEntry K V} {p : List (PathEntry K V)}
    (h1 : (e.dir = Dir.left → cmp key e.k < 0) ∧
      (e.dir = Dir.right → cmp key e.k > 0))
    (h2 : Steers cmp key p) : Steers cmp key (e :: p) := by
  intro x hx
  rcases List.mem_cons.mp hx with hx | hx
  · subst hx; exact h1
  · exact h2 x hx

theorem steers_of_cons {key : K} {e : PathEntry K V} {p : List (PathEntry K V)}
    (h : Steers cmp key (e :: p)) : Steers cmp key p :=
  fun x hx => h x (List.mem_cons_of_mem e hx)

/-- Looking a key up in a rebuilt tree first retraces the path that
steers it. -/
theorem lookup_plug {key : K} {p : List (PathEntry K V)} (t : Tree K V)
    (hs : Steers cmp key p) :
    map_lookup cmp (plug t p) key = map_lookup cmp t key := by
  induction p generalizing t with
  | nil => rfl
  | cons e rest ih =>
    have he := hs e (List.mem_cons_self e rest)
    have hrest := steers_of_cons hs
    rw [plug, ih (peNode e t) hrest]
    obtain ⟨ec, ek, ev, ed, es⟩ := e
    cases ed with
    | left =>
      have hlt : cmp key ek < 0 := he.1 rfl
      simp [peNode, map_lookup, hlt]
    | right =>
      have hgt : cmp key ek > 0 := he.2 rfl
      have hnl : ¬cmp key ek < 0 := by omega
      simp [peNode, map_lookup, hnl, hgt]

/-- Descending into a rebuilt tree first retraces the path that steers
the key. -/
theorem descend_plug {key : K} (p : List (PathEntry K V)) (t : Tree K V)
    (hs : Steers cmp key p) :
    descend cmp key (plug t p) [] = descend cmp key t p := by
  suffices h : ∀ q (pre : List (PathEntry K V)) (t : Tree K V), Steers cmp key q →
      descend cmp key (plug t q) pre = descend cmp key t (q ++ pre) by
    have := h p [] t hs
    simpa using this
  intro q
  induction q with
  | nil => intro pre t _; rfl
  | cons e rest ih =>
    intro pre t hs'
    have he := hs' e (List.mem_cons_self e rest)
    have hrest := steers_of_cons hs'
    rw [plug, ih pre (peNode e t) hrest]
    obtain ⟨ec, ek, ev, ed, es⟩ := e
    cases ed with
    | left =>
      have hlt : cmp key ek < 0 := he.1 rfl
      simp [peNode, descend, hlt]
    | right =>
      have hgt : cmp key ek > 0 := he.2 rfl
      have hnl : ¬cmp key ek < 0 := by omega
      simp [peNode, descend, hnl, hgt]

/-- Reconstruction: a successful descent decomposes the tree, the found
key compares equal, and the extended path still steers the key. -/
theorem descend_found_plug {key : K} {t : Tree K V} {path p : List (PathEntry K V)}
    {c : Color} {k0 : K} {v0 : V} {l r : Tree K V}
    (h : descend cmp key t path = .found c k0 v0 l r p) :
    plug (.node c k0 v0 l r) p = plug t path ∧ cmp key k0 = 0 ∧
      (Steers cmp key path → Steers cmp key p) := by
  induction t generalizing path with
  | nil => simp [descend] at h
  | node tc tk tv tl tr ihl ihr =>
    by_cases h1 : cmp key tk < 0
    · simp only [descend, if_pos h1] at h
      obtain ⟨hp, hc, hst⟩ := ihl h
      refine ⟨?_, hc, fun hs => hst (steers_cons
        ⟨fun _ => h1, fun hd => Dir.noConfusion hd⟩ hs)⟩
      rw [hp]; rfl
    · by_cases h2 : cmp key tk > 0
      · simp only [descend, if_neg h1, if_pos h2] at h
        obtain ⟨hp, hc, hst⟩ := ihr h
        refine ⟨?_, hc, fun hs => hst (steers_cons
          ⟨fun hd => Dir.noConfusion hd, fun _ => h2⟩ hs)⟩
        rw [hp]; rfl
      · simp only [descend, if_neg h1, if_neg h2, DescRes.found.injEq] at h
        obtain ⟨hc, hk, hv, hl, hr, hp⟩ := h
        subst hc; subst hk; subst hv; subst hl; subst hr; subst hp
        refine ⟨rfl, by omega, fun hs => hs⟩

/-- Reconstruction for an unsuccessful descent: the `NULL` position
decomposes the tree. -/
theorem descend_notFound_plug {key : K} {t : Tree K V}
    {path p : List (PathEntry K V)}
    (h : descend cmp key t path = .notFound p) :
    plug (.nil : Tree K V) p = plug t path ∧
      (Steers cmp key path → Steers cmp key p) := by
  induction t generalizing path with
  | nil =>
    simp only [descend, DescRes.notFound.injEq] at h
    subst h
    exact ⟨rfl, fun hs => hs⟩
  | node tc tk tv tl tr ihl ihr =>
    by_cases h1 : cmp key tk < 0
    · simp only [descend, if_pos h1] at h
      obtain ⟨hp, hst⟩ := ihl h
      refine ⟨?_, fun hs => hst (steers_cons
        ⟨fun _ => h1, fun hd => Dir.noConfusion hd⟩ hs)⟩
      rw [hp]; rfl
    · by_cases h2 : cmp key tk > 0
      · simp only [descend, if_neg h1, if_pos h2] at h
        obtain ⟨hp, hst⟩ := ihr h
        refine ⟨?_, fun hs => hst (steers_cons
          ⟨fun hd => Dir.noConfusion hd, fun _ => h2⟩ hs)⟩
        rw [hp]; rfl
      · simp only [descend, if_neg h1, if_neg h2] at h
        exact DescRes.noConfusion h

/-- The two passes agree: lookup returns `none` exactly when the descent
reports the key absent, and returns the found node's value otherwise. -/
theorem lookup_of_descend {key : K} {t : Tree K V} {path : List (PathEntry K V)} :
    (∀ p, descend cmp key t path = .notFound p → map_lookup cmp t key = none) ∧
    (∀ c k0 v0 l r p, descend cmp key t path = .found c k0 v0 l r p →
      map_lookup cmp t key = some v0) := by
  induction t generalizing path with
  | nil =>
    constructor
    · intro p _; rfl
    · intro c k0 v0 l r p h
      exact DescRes.noConfusion h
  | node tc tk tv tl tr ihl ihr =>
    by_cases h1 : cmp key tk < 0
    · constructor
      · intro p h
        simp only [descend, if_pos h1] at h
        simp only [map_lookup, if_pos h1]
        exact (@ihl (⟨tc, tk, tv, .left, tr⟩ :: path)).1 p h
      · intro c k0 v0 l r p h
        simp only [descend, if_pos h1] at h
        simp only [map_lookup, if_pos h1]
        exact (@ihl (⟨tc, tk, tv, .left, tr⟩ :: path)).2 c k0 v0 l r p h
    · by_cases h2 : cmp key tk > 0
      · constructor
        · intro p h
          simp only [descend, if_neg h1, if_pos h2] at h
          simp only [map_lookup, if_neg h1, if_pos h2]
          exact (@ihr (⟨tc, tk, tv, .right, tl⟩ :: path)).1 p h
        · intro c k0 v0 l r p h
          simp only [descend, if_neg h1, if_pos h2] at h
          simp only [map_lookup, if_neg h1, if_pos h2]
          exact (@ihr (⟨tc, tk, tv, .right, tl⟩ :: path)).2 c k0 v0 l r p h
      · constructor
        · intro p h
          simp only [descend, if_neg h1, if_neg h2] at h
          exact DescRes.noConfusion h
        · intro c k0 v0 l r p h
          simp only [descend, if_neg h1, if_neg h2, DescRes.found.injEq] at h
          simp only [map_lookup, if_neg h1, if_neg h2]
          rw [h.2.2.1]

theorem lookup_none_of_notFound {key : K} {t : Tree K V}
    {p : List (PathEntry K V)} (h : descend cmp key t [] = .notFound p) :
    map_lookup cmp t key = none :=
  (lookup_of_descend).1 p h

theorem lookup_some_of_found {key : K} {t : Tree K V} {c : Color} {k0 : K}
    {v0 : V} {l r : Tree K V} {p : List (PathEntry K V)}
    (h : descend cmp key t [] = .found c k0 v0 l r p) :
    map_lookup cmp t key = some v0 :=
  (lookup_of_descend).2 c k0 v0 l r p h

/-- Conversely: if the lookup fails, the descent reports the key absent. -/
theorem notFound_of_lookup_none {key : K} {t : Tree K V}
    (h : map_lookup cmp t key = none) :
    ∃ p, descend cmp key t [] = .notFound p := by
  cases hd : descend cmp key t [] with
  | found c k0 v0 l r p =>
    rw [lookup_some_of_found hd] at h
    cases h
  | notFound p => exact ⟨p, rfl⟩

/-- If the lookup succeeds, the descent finds a node. -/
theorem found_of_lookup_some {key : K} {t : Tree K V} {w : V}
    (h : map_lookup cmp t key = some w) :
    ∃ c k0 v0 l r p, descend cmp key t [] = .found c k0 v0 l r p := by
  cases hd : descend cmp key t [] with
  | found c k0 v0 l r p => exact ⟨c, k0, v0, l, r, p, rfl⟩
  | notFound p =>
    rw [lookup_none_of_notFound hd] at h
    cases h

end RB23

namespace RB23

variable {K V : Type}

theorem node_check_nil (pc : Option Color) :
    node_check pc (.nil : Tree K V) = some 1 := rfl

theorem parentOkB_black (pc : Option Color) :
    parentOkB pc Color.black = true := by
  cases pc <;> simp [parentOkB]

theorem parentOkB_some_black (c : Color) :
    parentOkB (some Color.black) c = true := by
  cases c <;> simp [parentOkB]

/-- Elimination/introduction form of the `node_check` body. -/
theorem node_check_node {pc : Option Color} {c : Color} {k : K} {v : V}
    {l r : Tree K V} {n : Nat} :
    node_check pc (.node c k v l r) = some n ↔
      (parentOkB pc c = true ∧
       (nodeIsBlackB l || nodeIsBlackB r) = true ∧
       ∃ a, node_check (some c) l = some a ∧ node_check (some c) r = some a ∧
         n = a + (if c = Color.black then 1 else 0)) := by
  constructor
  · intro h
    rw [node_check] at h
    by_cases h1 : (parentOkB pc c && (nodeIsBlackB l || nodeIsBlackB r)) = true
    · rw [if_pos h1] at h
      rcases hl : node_check (some c) l with _ | a <;> rw [hl] at h
      · cases h
      · rcases hr : node_check (some c) r with _ | b <;> rw [hr] at h
        · cases h
        · have h2 : (if a = b then
              some (a + (if c = Color.black then 1 else 0)) else none) =
              some n := h
          by_cases hab : a = b
          · rw [if_pos hab] at h2
            simp only [Option.some.injEq] at h2
            simp only [Bool.and_eq_true] at h1
            exact ⟨h1.1, h1.2, a, rfl, by rw [hab], h2.symm⟩
          · rw [if_neg hab] at h2; cases h2
    · rw [if_neg h1] at h; cases h
  · rintro ⟨h1, h2, a, hl, hr, hn⟩
    rw [node_check, if_pos (by rw [h1, h2]; rfl), hl, hr]
    simp [hn]

/-- `node_check` does not consult the parent color below a black root. -/
theorem node_check_pc_irrel {t : Tree K V} (hb : nodeIsBlackB t = true)
    (pc pc' : Option Color) : node_check pc t = node_check pc' t := by
  cases t with
  | nil => rfl
  | node c k v l r =>
    cases c with
    | black =>
      rw [node_check, node_check, parentOkB_black, parentOkB_black]
    | red => simp [nodeIsBlackB] at hb

theorem node_check_none_eq (t : Tree K V) :
    node_check none t = node_check (some Color.black) t := by
  cases t with
  | nil => rfl
  | node c k v l r =>
    rw [node_check, node_check, parentOkB_some_black]
    rfl

theorem node_check_black_of_red {t : Tree K V} {n : Nat}
    (h : node_check (some Color.red) t = some n) :
    node_check (some Color.black) t = some n := by
  cases t with
  | nil => exact h
  | node c k v l r =>
    rw [node_check_node] at h ⊢
    obtain ⟨h1, h2, a, hl, hr, hn⟩ := h
    exact ⟨parentOkB_some_black c, h2, a, hl, hr, hn⟩

theorem node_check_red_root_black {t : Tree K V} {n : Nat}
    (h : node_check (some Color.red) t = some n) : nodeIsBlackB t = true := by
  cases t with
  | nil => rfl
  | node c k v l r =>
    rw [node_check_node] at h
    have := h.1
    cases c with
    | black => rfl
    | red => simp [parentOkB] at this

theorem node_check_red_of_black {t : Tree K V} {n : Nat}
    (h : node_check (some Color.black) t = some n) (hb : nodeIsBlackB t = true) :
    node_check (some Color.red) t = some n := by
  rw [node_check_pc_irrel hb (some Color.red) (some Color.black)]
  exact h

theorem node_check_pos {t : Tree K V} : ∀ {pc : Option Color} {n : Nat},
    node_check pc t = some n → 1 ≤ n := by
  induction t with
  | nil =>
    intro pc n h
    simp [node_check] at h
    omega
  | node c k v l r ihl ihr =>
    intro pc n h
    rw [node_check_node] at h
    obtain ⟨-, -, a, hl, -, hn⟩ := h
    have := ihl hl
    omega

/-- The balance bookkeeping along a path: `n` is the black depth expected
of the subtree sitting in the hole; each ancestor's other child has that
same black depth under the ancestor's color, and a red ancestor has a
black parent whose other child is black-rooted (no two red children). -/
def PathOK : List (PathEntry K V) → Nat → Prop
  | [], _ => True
  | p :: rest, n =>
    node_check (some p.c) p.sib = some n ∧
    (p.c = Color.red → ∃ g rest', rest = g :: rest' ∧ g.c = Color.black ∧
      nodeIsBlackB g.sib = true) ∧
    PathOK rest (n + (if p.c = Color.black then 1 else 0))

/-- What a red-rooted subtree needs of the context it is plugged into:
a black parent whose other child is black-rooted. -/
def RedTop : List (PathEntry K V) → Prop
  | [] => True
  | e :: _ => e.c = Color.black ∧ nodeIsBlackB e.sib = true

/-- The outermost path entry (the root of the rebuilt tree) is black. -/
def LastBlack : List (PathEntry K V) → Prop
  | [] => True
  | [p] => p.c = Color.black
  | _ :: rest => LastBlack rest

theorem lastBlack_cons {e : PathEntry K V} {p : List (PathEntry K V)}
    (hp : p ≠ []) (h : LastBlack (e :: p)) : LastBlack p := by
  cases p with
  | nil => exact absurd rfl hp
  | cons f rest => exact h

theorem rootBlack_plug {t : Tree K V} {path : List (PathEntry K V)}
    (hne : path ≠ []) (hl : LastBlack path) :
    nodeIsBlackB (plug t path) = true := by
  induction path generalizing t with
  | nil => exact absurd rfl hne
  | cons e rest ih =>
    cases rest with
    | nil =>
      have he : e.c = Color.black := hl
      obtain ⟨ec, ek, ev, ed, es⟩ := e
      cases ed <;> simp_all [plug, peNode, nodeIsBlackB]
    | cons f rest' =>
      exact ih (by simp) (lastBlack_cons (by simp) hl)

/-- Plugging a valid black-depth-`n` subtree into a context that expects
black depth `n` yields a tree passing `node_check` (a red root also needs
`RedTop`). -/
theorem node_check_plug {path : List (PathEntry K V)} {n : Nat} {t : Tree K V}
    (hp : PathOK path n)
    (ht : node_check (some Color.black) t = some n)
    (hred : nodeIsRedB t = true → RedTop path) :
    ∃ N, node_check none (plug t path) = some N := by
  induction path generalizing t n with
  | nil =>
    exact ⟨n, by rw [plug, node_check_none_eq]; exact ht⟩
  | cons p rest ih =>
    obtain ⟨hsib, hredc, hrest⟩ := hp
    rw [plug]
    have htb : nodeIsBlackB t = true ∨ nodeIsRedB t = true := by
      cases t with
      | nil => left; rfl
      | node c k v l r => cases c <;> simp [nodeIsBlackB, nodeIsRedB]
    have hchild : node_check (some p.c) t = some n := by
      cases hc : p.c with
      | black => rw [← hc] at ht ⊢; exact ht
      | red =>
        rcases htb with hb | hr
        · rw [node_check_pc_irrel hb (some Color.red) (some Color.black)]
          exact ht
        · exact absurd ((hred hr).1) (by rw [hc]; simp)
    have honeRed : (nodeIsBlackB t || nodeIsBlackB p.sib) = true := by
      rcases htb with hb | hr
      · rw [hb]; rfl
      · rw [(hred hr).2]; simp
    have hnew : node_check (some Color.black) (peNode p t) =
        some (n + (if p.c = Color.black then 1 else 0)) := by
      obtain ⟨pc, pk, pv, pd, ps⟩ := p
      cases pd with
      | left =>
        rw [peNode]
        rw [node_check_node]
        exact ⟨parentOkB_some_black pc, by simpa using honeRed, n, hchild, hsib, rfl⟩
      | right =>
        rw [peNode]
        rw [node_check_node]
        refine ⟨parentOkB_some_black pc, ?_, n, hsib, hchild, rfl⟩
        rcases Bool.or_eq_true_iff.mp (by simpa using honeRed) with h | h <;>
          simp [h]
    refine ih hrest hnew ?_
    intro hr
    rcases hc : p.c with _ | _
    · exfalso
      have : nodeIsRedB (peNode p t) = true := hr
      obtain ⟨pc, pk, pv, pd, ps⟩ := p
      simp only at hc
      subst hc
      cases pd <;> simp [peNode, nodeIsRedB] at this
    · obtain ⟨g, rest', hrq, hgc, hgs⟩ := hredc hc
      rw [hrq]
      exact ⟨hgc, hgs⟩

end RB23

namespace RB23

variable {K V : Type}

/-- The parent color of a position described by a path. -/
def pcOf : List (PathEntry K V) → Option Color
  | [] => none
  | e :: _ => some e.c

theorem node_check_nil_val {pc : Option Color} {n : Nat}
    (h : node_check pc (.nil : Tree K V) = some n) : n = 1 := by
  simp [node_check] at h
  omega

theorem black_of_not_red {t : Tree K V} (h : nodeIsRedB t = false) :
    nodeIsBlackB t = true := by
  cases t with
  | nil => rfl
  | node c k v l r => cases c <;> simp_all [nodeIsRedB, nodeIsBlackB]

theorem red_or_black (t : Tree K V) :
    nodeIsBlackB t = true ∨ nodeIsRedB t = true := by
  cases t with
  | nil => left; rfl
  | node c k v l r => cases c <;> simp [nodeIsBlackB, nodeIsRedB]

theorem node_check_red_parent_black {q : Color} {t : Tree K V} {n : Nat}
    (h : node_check (some q) t = some n) (hr : nodeIsRedB t = true) :
    q = Color.black := by
  cases t with
  | nil => cases hr
  | node c k v l r =>
    rw [node_check_node] at h
    have h1 := h.1
    cases c with
    | black => cases hr
    | red =>
      cases q with
      | black => rfl
      | red => simp [parentOkB] at h1

theorem lastBlack_intro {e : PathEntry K V} {p : List (PathEntry K V)}
    (h1 : p = [] → e.c = Color.black) (h2 : LastBlack p) :
    LastBlack (e :: p) := by
  cases p with
  | nil => exact h1 rfl
  | cons f rest => exact h2

/-- Blackening the root preserves `node_check`. -/
theorem blackenRoot_check {t : Tree K V} {N : Nat}
    (h : node_check none t = some N) :
    ∃ M, node_check none (blackenRoot t) = some M := by
  cases t with
  | nil => exact ⟨N, h⟩
  | node c k v l r =>
    rw [node_check_node] at h
    obtain ⟨-, h2, a, hl, hr, -⟩ := h
    refine ⟨a + 1, ?_⟩
    rw [blackenRoot, node_check_node]
    cases c with
    | black => exact ⟨rfl, h2, a, hl, hr, rfl⟩
    | red =>
      exact ⟨rfl, h2, a, node_check_black_of_red hl,
        node_check_black_of_red hr, rfl⟩

theorem blackenRoot_black {t : Tree K V} (h : t ≠ .nil) :
    nodeIsBlackB (blackenRoot t) = true := by
  cases t with
  | nil => exact absurd rfl h
  | node c k v l r => rfl

/-- Everything the top-down pass maintains about the current subtree and
its path: the checker accepts the subtree under its parent color, the
path bookkeeping `PathOK` holds, the outermost entry is black, a rootless
position holds a black subtree, and a red subtree hangs under a black
parent whose other child is black-rooted. -/
def DescSt (t : Tree K V) (path : List (PathEntry K V)) (n : Nat) : Prop :=
  node_check (pcOf path) t = some n ∧ PathOK path n ∧ LastBlack path ∧
  (path = [] → nodeIsBlackB t = true) ∧
  (nodeIsRedB t = true → ∃ e rest, path = e :: rest ∧ e.c = Color.black ∧
    nodeIsBlackB e.sib = true)

theorem descend_descSt {cmp : K → K → Int} {key : K} {t : Tree K V} :
    ∀ {path : List (PathEntry K V)} {n : Nat}, DescSt t path n →
    (∀ p, descend cmp key t path = .notFound p → DescSt (.nil : Tree K V) p 1) ∧
    (∀ c k0 v0 l r p, descend cmp key t path = .found c k0 v0 l r p →
      ∃ n', DescSt (.node c k0 v0 l r) p n') := by
  induction t with
  | nil =>
    intro path n hst
    constructor
    · intro p h
      simp only [descend, DescRes.notFound.injEq] at h
      subst h
      obtain ⟨ht, hp, hlb, hroot, -⟩ := hst
      have := node_check_nil_val ht
      subst this
      exact ⟨rfl, hp, hlb, fun _ => rfl, fun hr => nomatch hr⟩
    · intro c k0 v0 l r p h
      exact DescRes.noConfusion h
  | node c k v l r ihl ihr =>
    intro path n hst
    obtain ⟨ht, hp, hlb, hroot, hang⟩ := hst
    rw [node_check_node] at ht
    obtain ⟨hpok, hone, a, hcl, hcr, hn⟩ := ht
    have hlb' : ∀ (e : PathEntry K V), e.c = c → LastBlack (e :: path) := by
      intro e hec
      refine lastBlack_intro (fun hpath => ?_) hlb
      subst hpath
      have := hroot rfl
      rw [hec]
      cases c with
      | black => rfl
      | red => simp [nodeIsBlackB] at this
    have hredc : c = Color.red → ∃ g rest', path = g :: rest' ∧
        g.c = Color.black ∧ nodeIsBlackB g.sib = true := by
      intro hc
      exact hang (by simp [nodeIsRedB, hc])
    constructor
    · intro p h
      by_cases h1 : cmp key k < 0
      · simp only [descend, if_pos h1] at h
        refine ((@ihl (⟨c, k, v, .left, r⟩ :: path)
          a ⟨hcl, ⟨hcr, hredc, ?_⟩, hlb' _ rfl, by simp, ?_⟩).1) p h
        · rw [← hn]; exact hp
        · intro hlr
          refine ⟨⟨c, k, v, .left, r⟩, path, rfl,
            node_check_red_parent_black hcl hlr, ?_⟩
          rcases Bool.or_eq_true_iff.mp hone with hb | hb
          · rw [show nodeIsBlackB l = false by
              cases l with
              | nil => cases hlr
              | node lc _ _ _ _ =>
                cases lc
                · simp [nodeIsRedB] at hlr
                · simp [nodeIsBlackB]] at hb
            cases hb
          · exact hb
      · by_cases h2 : cmp key k > 0
        · simp only [descend, if_neg h1, if_pos h2] at h
          refine ((@ihr (⟨c, k, v, .right, l⟩ :: path)
            a ⟨hcr, ⟨hcl, hredc, ?_⟩, hlb' _ rfl, by simp, ?_⟩).1) p h
          · rw [← hn]; exact hp
          · intro hrr
            refine ⟨⟨c, k, v, .right, l⟩, path, rfl,
              node_check_red_parent_black hcr hrr, ?_⟩
            rcases Bool.or_eq_true_iff.mp hone with hb | hb
            · exact hb
            · rw [show nodeIsBlackB r = false by
                cases r with
                | nil => cases hrr
                | node rc _ _ _ _ =>
                  cases rc
                  · simp [nodeIsRedB] at hrr
                  · simp [nodeIsBlackB]] at hb
              cases hb
        · simp only [descend, if_neg h1, if_neg h2] at h
          exact DescRes.noConfusion h
    · intro c0 k0 v0 l0 r0 p h
      by_cases h1 : cmp key k < 0
      · simp only [descend, if_pos h1] at h
        refine ((@ihl (⟨c, k, v, .left, r⟩ :: path)
          a ⟨hcl, ⟨hcr, hredc, ?_⟩, hlb' _ rfl, by simp, ?_⟩).2)
            c0 k0 v0 l0 r0 p h
        · rw [← hn]; exact hp
        · intro hlr
          refine ⟨⟨c, k, v, .left, r⟩, path, rfl,
            node_check_red_parent_black hcl hlr, ?_⟩
          rcases Bool.or_eq_true_iff.mp hone with hb | hb
          · rw [show nodeIsBlackB l = false by
              cases l with
              | nil => cases hlr
              | node lc _ _ _ _ =>
                cases lc
                · simp [nodeIsRedB] at hlr
                · simp [nodeIsBlackB]] at hb
            cases hb
          · exact hb
      · by_cases h2 : cmp key k > 0
        · simp only [descend, if_neg h1, if_pos h2] at h
          refine ((@ihr (⟨c, k, v, .right, l⟩ :: path)
            a ⟨hcr, ⟨hcl, hredc, ?_⟩, hlb' _ rfl, by simp, ?_⟩).2)
              c0 k0 v0 l0 r0 p h
          · rw [← hn]; exact hp
          · intro hrr
            refine ⟨⟨c, k, v, .right, l⟩, path, rfl,
              node_check_red_parent_black hcr hrr, ?_⟩
            rcases Bool.or_eq_true_iff.mp hone with hb | hb
            · exact hb
            · rw [show nodeIsBlackB r = false by
                cases r with
                | nil => cases hrr
                | node rc _ _ _ _ =>
                  cases rc
                  · simp [nodeIsRedB] at hrr
                  · simp [nodeIsBlackB]] at hb
              cases hb
        · simp only [descend, if_neg h1, if_neg h2, DescRes.found.injEq] at h
          obtain ⟨hc, hk, hv, hl, hr, hpth⟩ := h
          subst hc; subst hk; subst hv; subst hl; subst hr; subst hpth
          exact ⟨n, by rw [node_check_node]
                       exact ⟨hpok, hone, a, hcl, hcr, hn⟩,
            hp, hlb, hroot, hang⟩

end RB23

namespace RB23

variable {K V : Type}

theorem red_shape {t : Tree K V} (h : nodeIsRedB t = true) :
    ∃ k v l r, t = Tree.node Color.red k v l r := by
  cases t with
  | nil => cases h
  | node c k v l r =>
    cases c with
    | black => simp [nodeIsRedB] at h
    | red => exact ⟨k, v, l, r, rfl⟩

/-- A red node passes the checker under a black parent iff both children
pass under a red parent with the same depth. -/
theorem node_check_red_node {k : K} {v : V} {a b : Tree K V} {n : Nat} :
    node_check (some Color.black) (.node .red k v a b) = some n ↔
      node_check (some Color.red) a = some n ∧
      node_check (some Color.red) b = some n := by
  constructor
  · intro h
    rw [node_check_node] at h
    obtain ⟨-, -, m, hl, hr, hn⟩ := h
    have : n = m := by simpa using hn
    subst this
    exact ⟨hl, hr⟩
  · rintro ⟨ha, hb⟩
    rw [node_check_node]
    refine ⟨rfl, ?_, n, ha, hb, by simp⟩
    rw [node_check_red_root_black ha]
    rfl

/-- Painting the root of a red node black pushes the depth up by one. -/
theorem blacken_red_chk {k : K} {v : V} {a b : Tree K V} {n : Nat}
    (h : node_check (some Color.black) (.node .red k v a b) = some n) :
    node_check (some Color.red) (.node .black k v a b) = some (n + 1) := by
  obtain ⟨ha, hb⟩ := node_check_red_node.mp h
  rw [node_check_node]
  refine ⟨rfl, ?_, n, node_check_black_of_red ha, node_check_black_of_red hb,
    by simp⟩
  rw [node_check_red_root_black ha]
  rfl

theorem ins_fixup_nil (x : Tree K V) : ins_fixup x [] = some x := rfl

theorem ins_fixup_red_rr (k : K) (v : V) (a b : Tree K V) (pk : K) (pv : V)
    (gk : K) (gv : V) (ps gs : Tree K V) (gc : Color)
    (rest : List (PathEntry K V)) :
    ins_fixup (.node .red k v a b)
      (⟨.red, pk, pv, .right, ps⟩ :: ⟨gc, gk, gv, .right, gs⟩ :: rest) =
    ins_fixup (.node .red pk pv (.node .black gk gv gs ps)
      (.node .black k v a b)) rest := rfl

theorem ins_fixup_red_ll (k : K) (v : V) (a b : Tree K V) (pk : K) (pv : V)
    (gk : K) (gv : V) (ps gs : Tree K V) (gc : Color)
    (rest : List (PathEntry K V)) :
    ins_fixup (.node .red k v a b)
      (⟨.red, pk, pv, .left, ps⟩ :: ⟨gc, gk, gv, .left, gs⟩ :: rest) =
    ins_fixup (.node .red pk pv (.node .black k v a b)
      (.node .black gk gv ps gs)) rest := rfl

theorem ins_fixup_red_lr (k : K) (v : V) (a b : Tree K V) (pk : K) (pv : V)
    (gk : K) (gv : V) (ps gs : Tree K V) (gc : Color)
    (rest : List (PathEntry K V)) :
    ins_fixup (.node .red k v a b)
      (⟨.red, pk, pv, .left, ps⟩ :: ⟨gc, gk, gv, .right, gs⟩ :: rest) =
    ins_fixup (.node .red k v (.node .black gk gv gs a)
      (.node .black pk pv b ps)) rest := rfl

theorem ins_fixup_red_rl (k : K) (v : V) (a b : Tree K V) (pk : K) (pv : V)
    (gk : K) (gv : V) (ps gs : Tree K V) (gc : Color)
    (rest : List (PathEntry K V)) :
    ins_fixup (.node .red k v a b)
      (⟨.red, pk, pv, .right, ps⟩ :: ⟨gc, gk, gv, .left, gs⟩ :: rest) =
    ins_fixup (.node .red k v (.node .black pk pv ps a)
      (.node .black gk gv b gs)) rest := rfl

theorem ins_fixup_red_noGrand (k : K) (v : V) (a b : Tree K V) (pk : K)
    (pv : V) (pd : Dir) (ps : Tree K V) :
    ins_fixup (.node .red k v a b) [⟨.red, pk, pv, pd, ps⟩] = none := by
  rw [ins_fixup.eq_def]
  simp

theorem ins_fixup_blk_redsib_l (k : K) (v : V) (a b : Tree K V) (pk : K)
    (pv : V) (sk : K) (sv : V) (sl sr : Tree K V)
    (rest : List (PathEntry K V)) :
    ins_fixup (.node .red k v a b)
      (⟨.black, pk, pv, .left, .node .red sk sv sl sr⟩ :: rest) =
    ins_fixup (.node .red pk pv (.node .black k v a b)
      (.node .black sk sv sl sr)) rest := by
  rw [ins_fixup.eq_def]
  simp [blackenRoot, nodeIsRedB]

theorem ins_fixup_blk_redsib_r (k : K) (v : V) (a b : Tree K V) (pk : K)
    (pv : V) (sk : K) (sv : V) (sl sr : Tree K V)
    (rest : List (PathEntry K V)) :
    ins_fixup (.node .red k v a b)
      (⟨.black, pk, pv, .right, .node .red sk sv sl sr⟩ :: rest) =
    ins_fixup (.node .red pk pv (.node .black sk sv sl sr)
      (.node .black k v a b)) rest := by
  rw [ins_fixup.eq_def]
  simp [blackenRoot, nodeIsRedB]

theorem ins_fixup_break (k : K) (v : V) (a b : Tree K V) (pk : K) (pv : V)
    (pd : Dir) (ps : Tree K V) (rest : List (PathEntry K V))
    (hs : nodeIsRedB ps = false) :
    ins_fixup (.node .red k v a b) (⟨.black, pk, pv, pd, ps⟩ :: rest) =
    some (plug (.node .red k v a b) (⟨.black, pk, pv, pd, ps⟩ :: rest)) := by
  rw [ins_fixup.eq_def]
  simp [hs]

/-- The bottom-up pass of `map_insert` only rearranges the tree: the
in-order entries are those of the tree rebuilt around the inserted node. -/
theorem ins_fixup_entries : ∀ (fuel : Nat) {path : List (PathEntry K V)},
    path.length ≤ fuel → ∀ {k : K} {v : V} {a b t : Tree K V},
    ins_fixup (.node .red k v a b) path = some t →
    entries t = entries (plug (.node .red k v a b) path) := by
  intro fuel
  induction fuel with
  | zero =>
    intro path hlen k v a b t h
    have : path = [] := by
      cases path with
      | nil => rfl
      | cons e rest => simp at hlen
    subst this
    cases h
    rfl
  | succ f ih =>
    intro path hlen k v a b t h
    cases path with
    | nil => cases h; rfl
    | cons p rest =>
      obtain ⟨pc, pk, pv, pd, ps⟩ := p
      cases pc with
      | red =>
        cases rest with
        | nil =>
          rw [ins_fixup_red_noGrand] at h
          cases h
        | cons g rest' =>
          obtain ⟨gc, gk, gv, gd, gs⟩ := g
          have hlen' : rest'.length ≤ f := by
            simp at hlen
            omega
          cases pd <;> cases gd
          · rw [ins_fixup_red_ll] at h
            rw [ih hlen' h]
            rw [show plug (Tree.node .red k v a b)
                (⟨.red, pk, pv, .left, ps⟩ :: ⟨gc, gk, gv, .left, gs⟩ :: rest') =
                plug (peNode ⟨gc, gk, gv, .left, gs⟩
                  (peNode ⟨.red, pk, pv, .left, ps⟩
                    (Tree.node .red k v a b))) rest' from rfl]
            rw [entries_plug, entries_plug]
            simp [entries, peNode]
          · rw [ins_fixup_red_lr] at h
            rw [ih hlen' h]
            rw [show plug (Tree.node .red k v a b)
                (⟨.red, pk, pv, .left, ps⟩ :: ⟨gc, gk, gv, .right, gs⟩ :: rest') =
                plug (peNode ⟨gc, gk, gv, .right, gs⟩
                  (peNode ⟨.red, pk, pv, .left, ps⟩
                    (Tree.node .red k v a b))) rest' from rfl]
            rw [entries_plug, entries_plug]
            simp [entries, peNode]
          · rw [ins_fixup_red_rl] at h
            rw [ih hlen' h]
            rw [show plug (Tree.node .red k v a b)
                (⟨.red, pk, pv, .right, ps⟩ :: ⟨gc, gk, gv, .left, gs⟩ :: rest') =
                plug (peNode ⟨gc, gk, gv, .left, gs⟩
                  (peNode ⟨.red, pk, pv, .right, ps⟩
                    (Tree.node .red k v a b))) rest' from rfl]
            rw [entries_plug, entries_plug]
            simp [entries, peNode]
          · rw [ins_fixup_red_rr] at h
            rw [ih hlen' h]
            rw [show plug (Tree.node .red k v a b)
                (⟨.red, pk, pv, .right, ps⟩ :: ⟨gc, gk, gv, .right, gs⟩ :: rest') =
                plug (peNode ⟨gc, gk, gv, .right, gs⟩
                  (peNode ⟨.red, pk, pv, .right, ps⟩
                    (Tree.node .red k v a b))) rest' from rfl]
            rw [entries_plug, entries_plug]
            simp [entries, peNode]
      | black =>
        have hlen' : rest.length ≤ f := by
          simp at hlen
          omega
        by_cases hrs : nodeIsRedB ps = true
        · obtain ⟨sk, sv, sl, sr, hshape⟩ := red_shape hrs
          subst hshape
          cases pd
          · rw [ins_fixup_blk_redsib_l] at h
            rw [ih hlen' h]
            rw [show plug (Tree.node .red k v a b)
                (⟨.black, pk, pv, .left, Tree.node .red sk sv sl sr⟩ :: rest) =
                plug (peNode ⟨.black, pk, pv, .left, Tree.node .red sk sv sl sr⟩
                  (Tree.node .red k v a b)) rest from rfl]
            rw [entries_plug, entries_plug]
            simp [entries, peNode]
          · rw [ins_fixup_blk_redsib_r] at h
            rw [ih hlen' h]
            rw [show plug (Tree.node .red k v a b)
                (⟨.black, pk, pv, .right, Tree.node .red sk sv sl sr⟩ :: rest) =
                plug (peNode ⟨.black, pk, pv, .right, Tree.node .red sk sv sl sr⟩
                  (Tree.node .red k v a b)) rest from rfl]
            rw [entries_plug, entries_plug]
            simp [entries, peNode]
        · rw [ins_fixup_break _ _ _ _ _ _ _ _ _ (by simpa using hrs)] at h
          cases h
          rfl

end RB23

namespace RB23

variable {K V : Type}

/-- The bottom-up pass of `map_insert` restores the red-black invariants:
given a red current node that locally passes the checker and a path with
correct balance bookkeeping, it succeeds and yields a tree accepted by
`node_check`. -/
theorem ins_fixup_ok : ∀ (fuel : Nat) {path : List (PathEntry K V)},
    path.length ≤ fuel → ∀ {k : K} {v : V} {a b : Tree K V} {n : Nat},
    node_check (some Color.black) (.node .red k v a b) = some n →
    PathOK path n →
    ∃ t, ins_fixup (.node .red k v a b) path = some t ∧
      ∃ N, node_check none t = some N := by
  intro fuel
  induction fuel with
  | zero =>
    intro path hlen k v a b n hx hp
    have : path = [] := by
      cases path with
      | nil => rfl
      | cons e rest => simp at hlen
    subst this
    exact ⟨_, rfl, n, by rw [node_check_none_eq]; exact hx⟩
  | succ f ih =>
    intro path hlen k v a b n hx hp
    cases path with
    | nil => exact ⟨_, rfl, n, by rw [node_check_none_eq]; exact hx⟩
    | cons p rest =>
      obtain ⟨pc, pk, pv, pd, ps⟩ := p
      obtain ⟨hsib, hredc, hrest⟩ := hp
      cases pc with
      | red =>
        obtain ⟨g, rest0, hrq, hgc, hgsb⟩ := hredc rfl
        obtain ⟨gc, gk, gv, gd, gs⟩ := g
        subst hrq
        have hgc' : gc = Color.black := hgc
        subst hgc'
        obtain ⟨hsibg, -, hrest'⟩ := hrest
        simp only [if_pos rfl] at hrest'
        have hsibp : node_check (some Color.red) ps = some n := by
          simpa using hsib
        have hsibg' : node_check (some Color.black) gs = some n := by
          simpa using hsibg
        obtain ⟨ha, hb⟩ := node_check_red_node.mp hx
        have hgsb' : nodeIsBlackB gs = true := hgsb
        have hlen' : rest0.length ≤ f := by
          simp at hlen
          omega
        have hrest0 : PathOK rest0 (n + 1) := by
          simpa using hrest'
        cases pd <;> cases gd
        · -- left-left
          rw [ins_fixup_red_ll]
          refine ih hlen' (node_check_red_node.mpr ⟨?_, ?_⟩) hrest0
          · exact blacken_red_chk hx
          · rw [node_check_node]
            refine ⟨rfl, by rw [node_check_red_root_black hsibp]; simp,
              n, node_check_black_of_red hsibp, hsibg', by simp⟩
        · -- left-right (zig-zag)
          rw [ins_fixup_red_lr]
          refine ih hlen' (node_check_red_node.mpr ⟨?_, ?_⟩) hrest0
          · rw [node_check_node]
            refine ⟨rfl, by rw [hgsb']; simp, n, hsibg',
              node_check_black_of_red ha, by simp⟩
          · rw [node_check_node]
            refine ⟨rfl, by rw [node_check_red_root_black hsibp]; simp,
              n, node_check_black_of_red hb,
              node_check_black_of_red hsibp, by simp⟩
        · -- right-left (zig-zag)
          rw [ins_fixup_red_rl]
          refine ih hlen' (node_check_red_node.mpr ⟨?_, ?_⟩) hrest0
          · rw [node_check_node]
            refine ⟨rfl, by rw [node_check_red_root_black hsibp]; simp,
              n, node_check_black_of_red hsibp,
              node_check_black_of_red ha, by simp⟩
          · rw [node_check_node]
            refine ⟨rfl, by rw [hgsb']; simp, n,
              node_check_black_of_red hb, hsibg', by simp⟩
        · -- right-right
          rw [ins_fixup_red_rr]
          refine ih hlen' (node_check_red_node.mpr ⟨?_, ?_⟩) hrest0
          · rw [node_check_node]
            refine ⟨rfl, by rw [hgsb']; simp,
              n, hsibg', node_check_black_of_red hsibp, by simp⟩
          · exact blacken_red_chk hx
      | black =>
        have hlen' : rest.length ≤ f := by
          simp at hlen
          omega
        have hrest' : PathOK rest (n + 1) := by
          simpa using hrest
        by_cases hrs : nodeIsRedB ps = true
        · obtain ⟨sk, sv, sl, sr, hshape⟩ := red_shape hrs
          subst hshape
          have hsib' : node_check (some Color.red)
              (.node .black sk sv sl sr) = some (n + 1) :=
            blacken_red_chk (by simpa using hsib)
          cases pd
          · rw [ins_fixup_blk_redsib_l]
            exact ih hlen' (node_check_red_node.mpr
              ⟨blacken_red_chk hx, hsib'⟩) hrest'
          · rw [ins_fixup_blk_redsib_r]
            exact ih hlen' (node_check_red_node.mpr
              ⟨hsib', blacken_red_chk hx⟩) hrest'
        · rw [ins_fixup_break _ _ _ _ _ _ _ _ _ (by simpa using hrs)]
          refine ⟨_, rfl, ?_⟩
          refine node_check_plug ⟨by simpa using hsib, hredc, hrest⟩ hx ?_
          intro _
          exact ⟨rfl, black_of_not_red (by simpa using hrs)⟩

end RB23

namespace RB23

variable {K V : Type}

/-- Insertion into an association list ordered by `cmp`, mirroring the
overwrite-value-only contract of `map_insert`: on an equal key the stored
key is kept and only the value is replaced. -/
def insList (cmp : K → K → Int) (key : K) (value : V) :
    List (K × V) → List (K × V)
  | [] => [(key, value)]
  | (k', v') :: tl =>
    if cmp key k' < 0 then (key, value) :: (k', v') :: tl
    else if cmp key k' > 0 then (k', v') :: insList cmp key value tl
    else (k', value) :: tl

/-- Removal of the first `cmp`-equal key from an association list. -/
def delList (cmp : K → K → Int) (key : K) : List (K × V) → List (K × V)
  | [] => []
  | (k', v') :: tl =>
    if cmp key k' = 0 then tl else (k', v') :: delList cmp key tl

/-- Lookup of the first `cmp`-equal key in an association list. -/
def lookList (cmp : K → K → Int) (key : K) : List (K × V) → Option V
  | [] => none
  | (k', v') :: tl => if cmp key k' = 0 then some v' else lookList cmp key tl

/-- Entry lists sorted strictly by the comparator. -/
def SortedE (cmp : K → K → Int) : List (K × V) → Prop :=
  List.Chain' (fun a b => cmp a.1 b.1 < 0)

/-- The binary-search-tree property localized at every node. -/
def bstP (cmp : K → K → Int) : Tree K V → Prop
  | .nil => True
  | .node _ k _ l r =>
    (∀ x ∈ keysT l, cmp x k < 0) ∧ (∀ x ∈ keysT r, cmp k x < 0) ∧
      bstP cmp l ∧ bstP cmp r

theorem keysT_node (c : Color) (k : K) (v : V) (l r : Tree K V) :
    keysT (.node c k v l r) = keysT l ++ k :: keysT r := by
  simp [keysT, entries]

theorem mem_keysT_of_mem_entries {t : Tree K V} {e : K × V}
    (h : e ∈ entries t) : e.1 ∈ keysT t :=
  List.mem_map_of_mem Prod.fst h

variable {cmp : K → K → Int}

theorem sorted_head_lt (L : LawfulCmp cmp) {x : K} {l : List K}
    (h : List.Chain' (fun a b => cmp a b < 0) (x :: l)) :
    ∀ y ∈ l, cmp x y < 0 := by
  induction l generalizing x with
  | nil => simp
  | cons z rest ih =>
    intro y hy
    have hxz : cmp x z < 0 := (List.chain'_cons.mp h).1
    rcases List.mem_cons.mp hy with rfl | hy'
    · exact hxz
    · exact L.lt_trans hxz (ih (List.chain'_cons.mp h).2 y hy')

theorem sorted_mid_left (L : LawfulCmp cmp) {xs ys : List K} {k : K}
    (h : List.Chain' (fun a b => cmp a b < 0) (xs ++ k :: ys)) :
    ∀ x ∈ xs, cmp x k < 0 := by
  induction xs with
  | nil => simp
  | cons a tl ih =>
    intro x hx
    rcases List.mem_cons.mp hx with rfl | hx'
    · exact sorted_head_lt L h k (by simp)
    · exact ih (List.Chain'.tail h) x hx'

theorem sorted_mid_right (L : LawfulCmp cmp) {xs ys : List K} {k : K}
    (h : List.Chain' (fun a b => cmp a b < 0) (xs ++ k :: ys)) :
    ∀ y ∈ ys, cmp k y < 0 := by
  have h2 : List.Chain' (fun a b => cmp a b < 0) (k :: ys) :=
    (List.chain'_append.mp h).2.1
  exact sorted_head_lt L h2

theorem sorted_append_left {xs ys : List K}
    (h : List.Chain' (fun a b => cmp a b < 0) (xs ++ ys)) :
    List.Chain' (fun a b => cmp a b < 0) xs :=
  (List.chain'_append.mp h).1

theorem sorted_append_right {xs ys : List K}
    (h : List.Chain' (fun a b => cmp a b < 0) (xs ++ ys)) :
    List.Chain' (fun a b => cmp a b < 0) ys :=
  (List.chain'_append.mp h).2.1

/-- A tree whose in-order keys are strictly sorted is a binary search
tree at every node. -/
theorem bstP_of_sorted (L : LawfulCmp cmp) {t : Tree K V}
    (h : List.Chain' (fun a b => cmp a b < 0) (keysT t)) : bstP cmp t := by
  induction t with
  | nil => trivial
  | node c k v l r ihl ihr =>
    rw [keysT_node] at h
    refine ⟨sorted_mid_left L h, sorted_mid_right L h, ?_, ?_⟩
    · exact ihl (sorted_append_left h)
    · exact ihr ((sorted_append_right h).tail)

theorem sortedE_iff_keys {l : List (K × V)} :
    SortedE cmp l ↔ List.Chain' (fun a b => cmp a b < 0) (l.map Prod.fst) := by
  rw [SortedE, List.chain'_map]

/-- All entries on the left of a descent position compare below the key,
all on the right above it. -/
def LowAll (cmp : K → K → Int) (key : K) (xs : List (K × V)) : Prop :=
  ∀ e ∈ xs, cmp key e.1 > 0

def HighAll (cmp : K → K → Int) (key : K) (xs : List (K × V)) : Prop :=
  ∀ e ∈ xs, cmp key e.1 < 0

theorem lowAll_nil {key : K} : LowAll cmp key ([] : List (K × V)) := by
  intro e he; cases he

theorem highAll_nil {key : K} : HighAll cmp key ([] : List (K × V)) := by
  intro e he; cases he

theorem lowAll_lpart_nil {key : K} :
    LowAll cmp key (lpart ([] : List (PathEntry K V))) := by
  intro e he; cases he

theorem highAll_rpart_nil {key : K} :
    HighAll cmp key (rpart ([] : List (PathEntry K V))) := by
  intro e he; cases he

/-- The descent keeps the key strictly between everything to the left and
everything to the right of the current position. -/
theorem descend_bounds (L : LawfulCmp cmp) {key : K} :
    ∀ {t : Tree K V} {path : List (PathEntry K V)}, bstP cmp t →
    LowAll cmp key (lpart path) → HighAll cmp key (rpart path) →
    (∀ p, descend cmp key t path = .notFound p →
      LowAll cmp key (lpart p) ∧ HighAll cmp key (rpart p)) ∧
    (∀ c k0 v0 l r p, descend cmp key t path = .found c k0 v0 l r p →
      LowAll cmp key (lpart p) ∧ HighAll cmp key (rpart p) ∧
        bstP cmp (.node c k0 v0 l r)) := by
  intro t
  induction t with
  | nil =>
    intro path hb hlo hhi
    constructor
    · intro p h
      simp only [descend, DescRes.notFound.injEq] at h
      subst h
      exact ⟨hlo, hhi⟩
    · intro c k0 v0 l r p h
      exact DescRes.noConfusion h
  | node tc tk tv tl tr ihl ihr =>
    intro path hb hlo hhi
    obtain ⟨hbl, hbr, hbtl, hbtr⟩ := hb
    by_cases h1 : cmp key tk < 0
    · have hhi' : HighAll cmp key (rpart (⟨tc, tk, tv, .left, tr⟩ :: path)) := by
        intro e he
        rw [rpart] at he
        simp only at he
        rcases List.mem_append.mp he with he | he
        · rcases List.mem_cons.mp he with rfl | he
          · exact h1
          · exact L.lt_trans h1 (hbr e.1 (mem_keysT_of_mem_entries he))
        · exact hhi e he
      have hlo' : LowAll cmp key (lpart (⟨tc, tk, tv, .left, tr⟩ :: path)) := by
        intro e he
        rw [lpart] at he
        simp only at he
        rcases List.mem_append.mp he with he | he
        · exact hlo e he
        · cases he
      constructor
      · intro p h
        simp only [descend, if_pos h1] at h
        exact (ihl hbtl hlo' hhi').1 p h
      · intro c k0 v0 l r p h
        simp only [descend, if_pos h1] at h
        exact (ihl hbtl hlo' hhi').2 c k0 v0 l r p h
    · by_cases h2 : cmp key tk > 0
      · have hlo' : LowAll cmp key (lpart (⟨tc, tk, tv, .right, tl⟩ :: path)) := by
          intro e he
          rw [lpart] at he
          simp only at he
          rcases List.mem_append.mp he with he | he
          · exact hlo e he
          · rcases List.mem_append.mp he with he | he
            · have := hbl e.1 (mem_keysT_of_mem_entries he)
              exact L.lt_asym (L.lt_trans this (L.gt_asym h2))
            · rcases List.mem_singleton.mp he with rfl
              exact h2
        have hhi' : HighAll cmp key (rpart (⟨tc, tk, tv, .right, tl⟩ :: path)) := by
          intro e he
          rw [rpart] at he
          simp only at he
          rcases List.mem_append.mp he with he | he
          · cases he
          · exact hhi e he
        constructor
        · intro p h
          simp only [descend, if_neg h1, if_pos h2] at h
          exact (ihr hbtr hlo' hhi').1 p h
        · intro c k0 v0 l r p h
          simp only [descend, if_neg h1, if_pos h2] at h
          exact (ihr hbtr hlo' hhi').2 c k0 v0 l r p h
      · constructor
        · intro p h
          simp only [descend, if_neg h1, if_neg h2] at h
          exact DescRes.noConfusion h
        · intro c k0 v0 l r p h
          simp only [descend, if_neg h1, if_neg h2, DescRes.found.injEq] at h
          obtain ⟨hc, hk, hv, hl, hr, hp⟩ := h
          subst hc; subst hk; subst hv; subst hl; subst hr; subst hp
          exact ⟨hlo, hhi, hbl, hbr, hbtl, hbtr⟩

end RB23

namespace RB23

variable {K V : Type} {cmp : K → K → Int}

theorem insList_append_low {key : K} {value : V} {xs : List (K × V)}
    (h : LowAll cmp key xs) (ys : List (K × V)) :
    insList cmp key value (xs ++ ys) = xs ++ insList cmp key value ys := by
  induction xs with
  | nil => rfl
  | cons a tl ih =>
    obtain ⟨ak, av⟩ := a
    have hgt : cmp key ak > 0 := h (ak, av) (by simp)
    rw [List.cons_append, insList, if_neg (by omega), if_pos hgt,
      ih (fun e he => h e (List.mem_cons_of_mem _ he))]
    rfl

theorem insList_high {key : K} {value : V} {ys : List (K × V)}
    (h : HighAll cmp key ys) :
    insList cmp key value ys = (key, value) :: ys := by
  cases ys with
  | nil => rfl
  | cons a tl =>
    obtain ⟨ak, av⟩ := a
    have hlt : cmp key ak < 0 := h (ak, av) (by simp)
    rw [insList, if_pos hlt]

theorem insList_eq_head {key k0 : K} {value : V} {v0 : V} {ys : List (K × V)}
    (h : cmp key k0 = 0) :
    insList cmp key value ((k0, v0) :: ys) = (k0, value) :: ys := by
  rw [insList, if_neg (by omega), if_neg (by omega)]

theorem delList_append_ne {key : K} {xs : List (K × V)}
    (h : ∀ e ∈ xs, cmp key e.1 ≠ 0) (ys : List (K × V)) :
    delList cmp key (xs ++ ys) = xs ++ delList cmp key ys := by
  induction xs with
  | nil => rfl
  | cons a tl ih =>
    obtain ⟨ak, av⟩ := a
    have hne : cmp key ak ≠ 0 := h (ak, av) (by simp)
    rw [List.cons_append, delList, if_neg hne,
      ih (fun e he => h e (List.mem_cons_of_mem _ he))]
    rfl

theorem delList_eq_head {key k0 : K} {v0 : V} {ys : List (K × V)}
    (h : cmp key k0 = 0) :
    delList cmp key ((k0, v0) :: ys) = ys := by
  rw [delList, if_pos h]

theorem delList_high {key : K} {ys : List (K × V)}
    (h : HighAll cmp key ys) : delList cmp key ys = ys := by
  induction ys with
  | nil => rfl
  | cons a tl ih =>
    obtain ⟨ak, av⟩ := a
    have hlt : cmp key ak < 0 := h (ak, av) (by simp)
    rw [delList, if_neg (by omega), ih (fun e he => h e (List.mem_cons_of_mem _ he))]

theorem lookList_append (key : K) (xs ys : List (K × V)) :
    lookList cmp key (xs ++ ys) =
      match lookList cmp key xs with
      | some w => some w
      | none => lookList cmp key ys := by
  induction xs with
  | nil => rfl
  | cons a tl ih =>
    obtain ⟨ak, av⟩ := a
    by_cases h : cmp key ak = 0
    · rw [List.cons_append, lookList, if_pos h, lookList, if_pos h]
    · rw [List.cons_append, lookList, if_neg h, lookList, if_neg h, ih]

theorem lookList_none {key : K} {ys : List (K × V)}
    (h : ∀ e ∈ ys, cmp key e.1 ≠ 0) : lookList cmp key ys = none := by
  induction ys with
  | nil => rfl
  | cons a tl ih =>
    obtain ⟨ak, av⟩ := a
    rw [lookList, if_neg (h (ak, av) (by simp)),
      ih (fun e he => h e (List.mem_cons_of_mem _ he))]

/-- Under the BST property, `map_lookup` computes the first-match lookup
on the in-order entry list. -/
theorem lookup_eq_lookList (L : LawfulCmp cmp) {t : Tree K V}
    (hb : bstP cmp t) (key : K) :
    map_lookup cmp t key = lookList cmp key (entries t) := by
  induction t with
  | nil => rfl
  | node c k v l r ihl ihr =>
    obtain ⟨hbl, hbr, hbtl, hbtr⟩ := hb
    rw [entries, lookList_append]
    by_cases h1 : cmp key k < 0
    · rw [show map_lookup cmp (.node c k v l r) key = map_lookup cmp l key by
        simp [map_lookup, h1]]
      rw [ihl hbtl]
      cases hx : lookList cmp key (entries l) with
      | some w => rfl
      | none =>
        rw [lookList, if_neg (by omega), lookList_none]
        intro e he
        have := hbr e.1 (mem_keysT_of_mem_entries he)
        have := L.lt_trans h1 this
        omega
    · by_cases h2 : cmp key k > 0
      · rw [show map_lookup cmp (.node c k v l r) key = map_lookup cmp r key by
          simp [map_lookup, h1, h2]]
        rw [ihr hbtr]
        rw [show lookList cmp key (entries l) = none from lookList_none ?_]
        · rw [lookList, if_neg (by omega)]
        · intro e he
          have := hbl e.1 (mem_keysT_of_mem_entries he)
          have := L.lt_trans this (L.gt_asym h2)
          have := L.lt_asym this
          omega
      · have h0 : cmp key k = 0 := by omega
        rw [show map_lookup cmp (.node c k v l r) key = some v by
          simp [map_lookup, h1, h2]]
        rw [show lookList cmp key (entries l) = none from lookList_none ?_]
        · rw [lookList, if_pos h0]
        · intro e he
          have h3 := hbl e.1 (mem_keysT_of_mem_entries he)
          have h4 := L.lt_of_lt_of_eq h3 (L.zero_symm h0)
          have h5 := L.lt_asym h4
          omega

end RB23

namespace RB23

variable {K V : Type} {cmp : K → K → Int}

theorem sortedE_head_lt (L : LawfulCmp cmp) {a : K × V} {l : List (K × V)}
    (h : SortedE cmp (a :: l)) : ∀ y ∈ l, cmp a.1 y.1 < 0 := by
  induction l generalizing a with
  | nil => simp
  | cons z rest ih =>
    intro y hy
    have haz : cmp a.1 z.1 < 0 := (List.chain'_cons.mp h).1
    rcases List.mem_cons.mp hy with rfl | hy'
    · exact haz
    · exact L.lt_trans haz (ih (List.chain'_cons.mp h).2 y hy')

theorem sortedE_cons_of {a : K × V} {l : List (K × V)}
    (h1 : ∀ y ∈ l.head?, cmp a.1 y.1 < 0) (h2 : SortedE cmp l) :
    SortedE cmp (a :: l) :=
  List.chain'_cons'.mpr ⟨h1, h2⟩

theorem insList_sorted (L : LawfulCmp cmp) {key : K} {value : V}
    {l : List (K × V)} (h : SortedE cmp l) :
    SortedE cmp (insList cmp key value l) := by
  induction l with
  | nil => simp [insList, SortedE]
  | cons a tl ih =>
    obtain ⟨ak, av⟩ := a
    by_cases h1 : cmp key ak < 0
    · rw [insList, if_pos h1]
      exact List.chain'_cons'.mpr ⟨by intro y hy; simp at hy; subst hy; exact h1, h⟩
    · by_cases h2 : cmp key ak > 0
      · rw [insList, if_neg h1, if_pos h2]
        refine sortedE_cons_of ?_ (ih (List.Chain'.tail h))
        intro y hy
        cases tl with
        | nil =>
          simp [insList] at hy
          subst hy
          exact L.gt_asym h2
        | cons c tl' =>
          obtain ⟨ck, cv⟩ := c
          have hac : cmp ak ck < 0 :=
            sortedE_head_lt L h (ck, cv) (by simp)
          by_cases h3 : cmp key ck < 0
          · simp [insList, if_pos h3] at hy
            subst hy
            exact L.gt_asym h2
          · by_cases h4 : cmp key ck > 0
            · simp [insList, if_neg h3, if_pos h4] at hy
              subst hy
              exact hac
            · simp [insList, if_neg h3, if_neg h4] at hy
              subst hy
              exact hac
      · rw [insList, if_neg h1, if_neg h2]
        refine sortedE_cons_of ?_ (List.Chain'.tail h)
        intro y hy
        have := sortedE_head_lt L h y (List.mem_of_mem_head? hy)
        exact this

theorem mem_of_mem_delList {key : K} {y : K × V} {l : List (K × V)}
    (h : y ∈ delList cmp key l) : y ∈ l := by
  induction l with
  | nil => exact h
  | cons c tl ih =>
    obtain ⟨ck, cv⟩ := c
    by_cases h2 : cmp key ck = 0
    · rw [delList, if_pos h2] at h
      exact List.mem_cons_of_mem _ h
    · rw [delList, if_neg h2] at h
      rcases List.mem_cons.mp h with rfl | h'
      · exact List.mem_cons_self _ _
      · exact List.mem_cons_of_mem _ (ih h')

theorem delList_sorted (L : LawfulCmp cmp) {key : K} {l : List (K × V)}
    (h : SortedE cmp l) : SortedE cmp (delList cmp key l) := by
  induction l with
  | nil => exact h
  | cons a tl ih =>
    obtain ⟨ak, av⟩ := a
    by_cases h1 : cmp key ak = 0
    · rw [delList, if_pos h1]
      exact List.Chain'.tail h
    · rw [delList, if_neg h1]
      refine sortedE_cons_of ?_ (ih (List.Chain'.tail h))
      intro y hy
      have hmem : y ∈ delList cmp key tl := List.mem_of_mem_head? hy
      exact sortedE_head_lt L h y (mem_of_mem_delList hmem)

theorem lookList_insList (L : LawfulCmp cmp) (key k' : K) (value : V)
    (l : List (K × V)) :
    lookList cmp key (insList cmp k' value l) =
      if cmp key k' = 0 then some value else lookList cmp key l := by
  induction l with
  | nil =>
    by_cases h : cmp key k' = 0 <;> simp [insList, lookList, h]
  | cons a tl ih =>
    obtain ⟨ak, av⟩ := a
    by_cases h1 : cmp k' ak < 0
    · rw [insList, if_pos h1, lookList]
    · by_cases h2 : cmp k' ak > 0
      · rw [insList, if_neg h1, if_pos h2]
        by_cases h3 : cmp key ak = 0
        · have h4 : ¬cmp key k' = 0 := by
            intro h5
            have := L.zero_trans (L.zero_symm h5) h3
            omega
          rw [lookList, if_pos h3, if_neg h4, lookList, if_pos h3]
        · rw [lookList, if_neg h3, ih]
          by_cases h5 : cmp key k' = 0
          · rw [if_pos h5, if_pos h5]
          · rw [if_neg h5, if_neg h5, lookList, if_neg h3]
      · have h0 : cmp k' ak = 0 := by omega
        rw [insList, if_neg h1, if_neg h2]
        by_cases h3 : cmp key k' = 0
        · have h4 : cmp key ak = 0 := L.zero_trans h3 h0
          rw [lookList, if_pos h4, if_pos h3]
        · have h4 : ¬cmp key ak = 0 := by
            intro h5
            have := L.zero_trans h5 (L.zero_symm h0)
            exact h3 this
          rw [lookList, if_neg h4, if_neg h3, lookList, if_neg h4]

theorem lookList_delList (L : LawfulCmp cmp) (key k' : K)
    {l : List (K × V)} (h : SortedE cmp l) :
    lookList cmp key (delList cmp k' l) =
      if cmp key k' = 0 then none else lookList cmp key l := by
  induction l with
  | nil =>
    by_cases h1 : cmp key k' = 0 <;> simp [delList, lookList, h1]
  | cons a tl ih =>
    obtain ⟨ak, av⟩ := a
    by_cases h1 : cmp k' ak = 0
    · rw [delList, if_pos h1]
      by_cases h2 : cmp key k' = 0
      · rw [if_pos h2]
        refine lookList_none ?_
        intro e he
        have h3 : cmp ak e.1 < 0 := sortedE_head_lt L h e he
        have h4 := L.zero_trans h2 h1
        intro h5
        have h6 := L.zero_trans (L.zero_symm h4) h5
        omega
      · rw [if_neg h2, lookList, if_neg ?_]
        intro h3
        exact h2 (L.zero_trans h3 (L.zero_symm h1))
    · rw [delList, if_neg h1]
      by_cases h2 : cmp key k' = 0
      · rw [if_pos h2]
        have h3 : ¬cmp key ak = 0 := by
          intro h4
          exact h1 (L.zero_trans (L.zero_symm h2) h4)
        rw [lookList, if_neg h3, ih (List.Chain'.tail h), if_pos h2]
      · rw [if_neg h2]
        by_cases h3 : cmp key ak = 0
        · rw [lookList, if_pos h3, lookList, if_pos h3]
        · rw [lookList, if_neg h3, lookList, if_neg h3,
            ih (List.Chain'.tail h), if_neg h2]

end RB23

namespace RB23

variable {K V : Type} {cmp : K → K → Int}

theorem blackenRoot_entries (t : Tree K V) :
    entries (blackenRoot t) = entries t := by
  cases t <;> rfl

/-- The representation invariant maintained between public operations:
the checker accepts the tree, the root is black, the in-order entries are
strictly sorted by the comparator, and the stored count is the number of
nodes. -/
def Inv (cmp : K → K → Int) (m : Map K V) : Prop :=
  (∃ N, node_check none m.root = some N) ∧ nodeIsBlackB m.root = true ∧
    SortedE cmp (entries m.root) ∧ m.count = (entries m.root).length

theorem inv_map_new : Inv cmp (map_new : Map K V) :=
  ⟨⟨1, rfl⟩, rfl, List.chain'_nil, rfl⟩

/-- Plugging back a subtree that satisfies the descent-state conditions
yields a tree accepted by the checker. -/
theorem plug_check_of_descSt {t : Tree K V} {p : List (PathEntry K V)} {n : Nat}
    (hchk : node_check (pcOf p) t = some n) (hpok : PathOK p n)
    (hang : nodeIsRedB t = true → ∃ e rest, p = e :: rest ∧
      e.c = Color.black ∧ nodeIsBlackB e.sib = true) :
    ∃ N, node_check none (plug t p) = some N := by
  have hblackchk : node_check (some Color.black) t = some n := by
    rcases red_or_black t with hb | hr
    · cases p with
      | nil => rw [← node_check_none_eq]; exact hchk
      | cons e rest =>
        rw [node_check_pc_irrel hb (some Color.black) (some e.c)]
        exact hchk
    · obtain ⟨e, rest, hpe, hec, -⟩ := hang hr
      subst hpe
      rw [show pcOf (e :: rest) = some e.c from rfl, hec] at hchk
      exact hchk
  refine node_check_plug hpok hblackchk ?_
  intro hr
  obtain ⟨e, rest, hpe, hec, hes⟩ := hang hr
  subst hpe
  exact ⟨hec, hes⟩

/-- `map_insert` with a succeeding allocation: returns success, keeps the
invariant, and its entries are the sorted-list insertion (overwriting only
the value on an equal key). -/
theorem map_insert_main (L : LawfulCmp cmp) {m : Map K V} (hInv : Inv cmp m)
    (key : K) (value : V) :
    ∃ m', map_insert cmp true m key value = some (true, m') ∧ Inv cmp m' ∧
      entries m'.root = insList cmp key value (entries m.root) := by
  obtain ⟨⟨N, hchk⟩, hblack, hsort, hcount⟩ := hInv
  have hnotred : nodeIsRedB m.root = false := by
    cases hx : nodeIsRedB m.root
    · rfl
    · exfalso
      obtain ⟨k', v', l', r', hsh⟩ := red_shape hx
      rw [hsh] at hblack
      simp [nodeIsBlackB] at hblack
  have hst : DescSt m.root ([] : List (PathEntry K V)) N :=
    ⟨hchk, trivial, trivial, fun _ => hblack,
      fun hr => by rw [hnotred] at hr; cases hr⟩
  have hbst : bstP cmp m.root := bstP_of_sorted L (by
    rw [show (keysT m.root) = (entries m.root).map Prod.fst from rfl]
    exact sortedE_iff_keys.mp hsort)
  cases hd : descend cmp key m.root [] with
  | found c k0 v0 l r p =>
    obtain ⟨hplug, hc0, -⟩ := descend_found_plug hd
    obtain ⟨hlo, hhi, hbnode⟩ :=
      ((descend_bounds L hbst lowAll_lpart_nil highAll_rpart_nil).2) c k0 v0 l r p hd
    obtain ⟨n', hstf⟩ := (descend_descSt hst).2 c k0 v0 l r p hd
    obtain ⟨hchkf, hpok, hlb, hroot0, hang⟩ := hstf
    have hchkf' : node_check (pcOf p) (.node c k0 value l r) = some n' := by
      rw [node_check_node] at hchkf ⊢
      exact hchkf
    have hplug2 : m.root = plug (.node c k0 v0 l r) p := hplug.symm
    have hEold : entries m.root =
        (lpart p ++ entries l) ++ (k0, v0) :: (entries r ++ rpart p) := by
      conv_lhs => rw [hplug2]
      rw [entries_plug, entries]
      simp [List.append_assoc]
    have hlow2 : LowAll cmp key (lpart p ++ entries l) := by
      intro e he
      rcases List.mem_append.mp he with he | he
      · exact hlo e he
      · have h1 := hbnode.1 e.1 (mem_keysT_of_mem_entries he)
        have h2 := L.lt_of_lt_of_eq h1 (L.zero_symm hc0)
        exact L.lt_asym h2
    have hEnew : entries (plug (.node c k0 value l r) p) =
        (lpart p ++ entries l) ++ (k0, value) :: (entries r ++ rpart p) := by
      rw [entries_plug, entries]
      simp [List.append_assoc]
    have hchar : insList cmp key value (entries m.root) =
        (lpart p ++ entries l) ++ (k0, value) :: (entries r ++ rpart p) := by
      rw [hEold, insList_append_low hlow2, insList_eq_head hc0]
    have hang' : nodeIsRedB (Tree.node c k0 value l r) = true →
        ∃ e rest, p = e :: rest ∧ e.c = Color.black ∧
          nodeIsBlackB e.sib = true := by
      intro hr
      refine hang ?_
      cases c <;> exact hr
    refine ⟨⟨plug (.node c k0 value l r) p, m.count⟩, by rw [map_insert, hd],
      ⟨plug_check_of_descSt hchkf' hpok hang', ?_, ?_, ?_⟩, ?_⟩
    · cases hpn : p with
      | nil =>
        subst hpn
        have := hroot0 rfl
        rw [plug]
        cases c with
        | black => rfl
        | red => simp [nodeIsBlackB] at this
      | cons e rest =>
        subst hpn
        exact rootBlack_plug (by simp) hlb
    · rw [show entries (Map.mk (plug (.node c k0 value l r) p) m.count).root =
        entries (plug (.node c k0 value l r) p) from rfl, hEnew, ← hchar]
      exact insList_sorted L hsort
    · rw [show entries (Map.mk (plug (.node c k0 value l r) p) m.count).root =
        entries (plug (.node c k0 value l r) p) from rfl, hEnew]
      rw [hEold] at hcount
      simpa using hcount
    · rw [show entries (Map.mk (plug (.node c k0 value l r) p) m.count).root =
        entries (plug (.node c k0 value l r) p) from rfl, hEnew, hchar]
  | notFound p =>
    obtain ⟨hplug, -⟩ := descend_notFound_plug hd
    obtain ⟨hlo, hhi⟩ := (descend_bounds L hbst lowAll_lpart_nil highAll_rpart_nil).1 p hd
    obtain ⟨-, hpok, hlb, -, -⟩ := (descend_descSt hst).1 p hd
    have hx : node_check (some Color.black)
        (.node .red key value .nil .nil : Tree K V) = some 1 :=
      node_check_red_node.mpr ⟨rfl, rfl⟩
    obtain ⟨t, hfix, N2, hchk2⟩ := ins_fixup_ok p.length (le_refl _) hx hpok
    have hEt : entries t = entries (plug (.node .red key value .nil .nil) p) :=
      ins_fixup_entries p.length (le_refl _) hfix
    have hEt' : entries t = lpart p ++ (key, value) :: rpart p := by
      rw [hEt, entries_plug]
      simp [entries]
    have hplug2 : m.root = plug (.nil : Tree K V) p := hplug.symm
    have hEold : entries m.root = lpart p ++ rpart p := by
      conv_lhs => rw [hplug2]
      rw [entries_plug]
      simp [entries]
    have hchar : insList cmp key value (entries m.root) =
        lpart p ++ (key, value) :: rpart p := by
      rw [hEold, insList_append_low hlo, insList_high hhi]
    have htne : t ≠ .nil := by
      intro hteq
      rw [hteq] at hEt'
      simp [entries] at hEt'
    refine ⟨⟨blackenRoot t, m.count + 1⟩, ?_, ⟨?_, ?_, ?_, ?_⟩, ?_⟩
    · rw [map_insert, hd]
      simp [hfix]
    · exact blackenRoot_check hchk2
    · exact blackenRoot_black htne
    · rw [show entries (Map.mk (blackenRoot t) (m.count + 1)).root =
        entries (blackenRoot t) from rfl, blackenRoot_entries, hEt', ← hchar]
      exact insList_sorted L hsort
    · rw [show entries (Map.mk (blackenRoot t) (m.count + 1)).root =
        entries (blackenRoot t) from rfl, blackenRoot_entries, hEt']
      rw [hEold] at hcount
      simp at hcount ⊢
      omega
    · rw [show entries (Map.mk (blackenRoot t) (m.count + 1)).root =
        entries (blackenRoot t) from rfl, blackenRoot_entries, hEt', hchar]

end RB23

namespace RB23

variable {K V : Type}

theorem rem_inner_climb_l (cur : Tree K V) (pc : Color) (pk : K) (pv : V)
    (sc : Color) (sk : K) (sv : V) (sl sr : Tree K V)
    (hsl : nodeIsRedB sl = false) (hsr : nodeIsRedB sr = false) :
    rem_inner cur ⟨pc, pk, pv, .left, .node sc sk sv sl sr⟩ =
      .climb (.node pc pk pv cur (.node .red sk sv sl sr)) := by
  rw [rem_inner]
  simp [hsl, hsr, peNode]

theorem rem_inner_climb_r (cur : Tree K V) (pc : Color) (pk : K) (pv : V)
    (sc : Color) (sk : K) (sv : V) (sl sr : Tree K V)
    (hsl : nodeIsRedB sl = false) (hsr : nodeIsRedB sr = false) :
    rem_inner cur ⟨pc, pk, pv, .right, .node sc sk sv sl sr⟩ =
      .climb (.node pc pk pv (.node .red sk sv sl sr) cur) := by
  rw [rem_inner]
  simp [hsl, hsr, peNode]

theorem rem_inner_outer_l (cur sl ra rb : Tree K V) (pc : Color) (pk : K)
    (pv : V) (sc : Color) (sk : K) (sv : V) (rk : K) (rv : V) :
    rem_inner cur ⟨pc, pk, pv, .left, .node sc sk sv sl (.node .red rk rv ra rb)⟩ =
      .done (.node pc sk sv (.node .black pk pv cur sl)
        (.node .black rk rv ra rb)) := by
  rw [rem_inner]
  simp [childD, nodeIsBlackB, nodeIsRedB, node_rotate, peNode, Dir.other]

theorem rem_inner_outer_r (cur la lb sr : Tree K V) (pc : Color) (pk : K)
    (pv : V) (sc : Color) (sk : K) (sv : V) (lk : K) (lv : V) :
    rem_inner cur ⟨pc, pk, pv, .right, .node sc sk sv (.node .red lk lv la lb) sr⟩ =
      .done (.node pc sk sv (.node .black lk lv la lb)
        (.node .black pk pv sr cur)) := by
  rw [rem_inner]
  simp [childD, nodeIsBlackB, nodeIsRedB, node_rotate, peNode, Dir.other]

theorem rem_inner_inner_l (cur il ir sr : Tree K V) (pc : Color) (pk : K)
    (pv : V) (sc : Color) (sk : K) (sv : V) (ik : K) (iv : V)
    (houter : nodeIsBlackB sr = true) :
    rem_inner cur ⟨pc, pk, pv, .left, .node sc sk sv (.node .red ik iv il ir) sr⟩ =
      .done (.node pc ik iv (.node .black pk pv cur il)
        (.node .black sk sv ir sr)) := by
  rw [rem_inner]
  simp [childD, nodeIsRedB, node_rotate, peNode, Dir.other, houter]

theorem rem_inner_inner_r (cur sl il ir : Tree K V) (pc : Color) (pk : K)
    (pv : V) (sc : Color) (sk : K) (sv : V) (ik : K) (iv : V)
    (houter : nodeIsBlackB sl = true) :
    rem_inner cur ⟨pc, pk, pv, .right, .node sc sk sv sl (.node .red ik iv il ir)⟩ =
      .done (.node pc ik iv (.node .black sk sv sl il)
        (.node .black pk pv ir cur)) := by
  rw [rem_inner]
  simp [childD, nodeIsRedB, node_rotate, peNode, Dir.other, houter]

end RB23

namespace RB23

variable {K V : Type}

theorem nodeIsBlackB_black_node (k : K) (v : V) (l r : Tree K V) :
    nodeIsBlackB (.node .black k v l r : Tree K V) = true := rfl

/-- Join two subtrees under a fresh black node. -/
theorem chk_black_join {k : K} {v : V} {a b : Tree K V} {n : Nat}
    (pc : Option Color)
    (ha : node_check (some Color.red) a = some n)
    (hb : node_check (some Color.red) b = some n) :
    node_check pc (.node .black k v a b) = some (n + 1) := by
  rw [node_check_node]
  refine ⟨parentOkB_black pc, ?_, n, node_check_black_of_red ha,
    node_check_black_of_red hb, rfl⟩
  rw [node_check_red_root_black ha]
  rfl

/-- One body of the removal rebalance loop from Figure 13b on: with a
black-depth-deficient current subtree and a valid black-rooted sibling one
deeper, it either climbs with the sibling painted red, or finishes with a
subtree whose deficit is repaired. -/
theorem rem_inner_ok {cur S : Tree K V} {n : Nat} {pc : Color} (pk : K)
    (pv : V) (pd : Dir)
    (hcur : node_check (some Color.red) cur = some n)
    (hS : node_check (some pc) S = some (n + 1))
    (hSb : nodeIsBlackB S = true) :
    (∃ t, rem_inner cur ⟨pc, pk, pv, pd, S⟩ = .climb t ∧
      entries t = entries (peNode ⟨pc, pk, pv, pd, S⟩ cur) ∧
      (pc = Color.black → node_check (some Color.red) t = some (n + 1)) ∧
      node_check (some Color.red) (blackenRoot t) = some (n + 1)) ∨
    (∃ t, rem_inner cur ⟨pc, pk, pv, pd, S⟩ = .done t ∧
      entries t = entries (peNode ⟨pc, pk, pv, pd, S⟩ cur) ∧
      node_check (some Color.black) t =
        some (n + 1 + (if pc = Color.black then 1 else 0)) ∧
      (nodeIsRedB t = true → pc = Color.red) ∧
      (pc = Color.black → nodeIsBlackB t = true)) := by
  have hn1 : 1 ≤ n := node_check_pos hcur
  have hcurb : nodeIsBlackB cur = true := node_check_red_root_black hcur
  cases S with
  | nil =>
    exfalso
    have := node_check_nil_val hS
    omega
  | node sc sk sv sl sr =>
    have hsc : sc = Color.black := by
      cases sc with
      | black => rfl
      | red => simp [nodeIsBlackB] at hSb
    subst hsc
    rw [node_check_node] at hS
    obtain ⟨-, hone, m, hsl0, hsr0, hm⟩ := hS
    have hmn : m = n := by simp at hm; omega
    rw [hmn] at hsl0 hsr0
    by_cases hrl : nodeIsRedB sl = true
    · -- the left child of the sibling is red; the right one is then black
      obtain ⟨ik, iv, il, ir, hsh⟩ := red_shape hrl
      subst hsh
      have hsrb : nodeIsBlackB sr = true := by
        rcases Bool.or_eq_true_iff.mp hone with h | h
        · simp [nodeIsBlackB] at h
        · exact h
      have hdec := hsl0
      rw [node_check_node] at hdec
      obtain ⟨-, -, q, hil, hir, hq⟩ := hdec
      have hqn : q = n := by simp at hq; omega
      rw [hqn] at hil hir
      right
      cases pd with
      | left =>
        -- red inner nephew: Figures 15a then 15b/15c
        refine ⟨_, rem_inner_inner_l cur il ir sr pc pk pv _ sk sv ik iv hsrb,
          ?_, ?_, ?_, ?_⟩
        · simp [entries, peNode, List.append_assoc]
        · rw [node_check_node]
          exact ⟨parentOkB_some_black _, rfl, n + 1,
            chk_black_join (some pc) hcur hil,
            chk_black_join (some pc) hir (node_check_red_of_black hsr0 hsrb),
            rfl⟩
        · intro hred
          cases pc with
          | black => simp [nodeIsRedB] at hred
          | red => rfl
        · intro hpc
          subst hpc
          rfl
      | right =>
        -- red outer nephew: Figures 15b/15c directly
        refine ⟨_, rem_inner_outer_r cur il ir sr pc pk pv _ sk sv ik iv,
          ?_, ?_, ?_, ?_⟩
        · simp [entries, peNode, List.append_assoc]
        · rw [node_check_node]
          exact ⟨parentOkB_some_black _, rfl, n + 1,
            chk_black_join (some pc) hil hir,
            chk_black_join (some pc) (node_check_red_of_black hsr0 hsrb) hcur,
            rfl⟩
        · intro hred
          cases pc with
          | black => simp [nodeIsRedB] at hred
          | red => rfl
        · intro hpc
          subst hpc
          rfl
    · have hrl' : nodeIsRedB sl = false := by
        cases h : nodeIsRedB sl
        · rfl
        · exact absurd h hrl
      have hslb : nodeIsBlackB sl = true := black_of_not_red hrl'
      by_cases hrr : nodeIsRedB sr = true
      · -- the right child of the sibling is red
        obtain ⟨rk, rv, ra, rb, hsh⟩ := red_shape hrr
        subst hsh
        have hdec := hsr0
        rw [node_check_node] at hdec
        obtain ⟨-, -, q, hra, hrb, hq⟩ := hdec
        have hqn : q = n := by simp at hq; omega
        rw [hqn] at hra hrb
        right
        cases pd with
        | left =>
          refine ⟨_, rem_inner_outer_l cur sl ra rb pc pk pv _ sk sv rk rv,
            ?_, ?_, ?_, ?_⟩
          · simp [entries, peNode, List.append_assoc]
          · rw [node_check_node]
            exact ⟨parentOkB_some_black _, rfl, n + 1,
              chk_black_join (some pc) hcur (node_check_red_of_black hsl0 hslb),
              chk_black_join (some pc) hra hrb, rfl⟩
          · intro hred
            cases pc with
            | black => simp [nodeIsRedB] at hred
            | red => rfl
          · intro hpc
            subst hpc
            rfl
        | right =>
          refine ⟨_, rem_inner_inner_r cur sl ra rb pc pk pv _ sk sv rk rv hslb,
            ?_, ?_, ?_, ?_⟩
          · simp [entries, peNode, List.append_assoc]
          · rw [node_check_node]
            exact ⟨parentOkB_some_black _, rfl, n + 1,
              chk_black_join (some pc) (node_check_red_of_black hsl0 hslb) hra,
              chk_black_join (some pc) hrb hcur, rfl⟩
          · intro hred
            cases pc with
            | black => simp [nodeIsRedB] at hred
            | red => rfl
          · intro hpc
            subst hpc
            rfl
      · -- no red nephew: paint the sibling red and climb
        have hrr' : nodeIsRedB sr = false := by
          cases h : nodeIsRedB sr
          · rfl
          · exact absurd h hrr
        have hsrb : nodeIsBlackB sr = true := black_of_not_red hrr'
        left
        have hSred : node_check (some Color.black)
            (.node .red sk sv sl sr : Tree K V) = some n := by
          rw [node_check_node]
          refine ⟨rfl, by rw [hslb]; rfl, n,
            node_check_red_of_black hsl0 hslb,
            node_check_red_of_black hsr0 hsrb, by simp⟩
        cases pd with
        | left =>
          have hcommon : node_check (some Color.red)
              (.node .black pk pv cur (.node .red sk sv sl sr) : Tree K V) =
              some (n + 1) := by
            rw [node_check_node]
            exact ⟨rfl, by rw [hcurb]; rfl, n,
              node_check_black_of_red hcur, hSred, rfl⟩
          refine ⟨_, rem_inner_climb_l cur pc pk pv _ sk sv sl sr hrl' hrr',
            ?_, ?_, ?_⟩
          · simp [entries, peNode]
          · intro hpc
            subst hpc
            exact hcommon
          · cases pc <;> exact hcommon
        | right =>
          have hcommon : node_check (some Color.red)
              (.node .black pk pv (.node .red sk sv sl sr) cur : Tree K V) =
              some (n + 1) := by
            rw [node_check_node]
            refine ⟨rfl, by rw [hcurb]; simp, n, hSred,
              node_check_black_of_red hcur, rfl⟩
          refine ⟨_, rem_inner_climb_r cur pc pk pv _ sk sv sl sr hrl' hrr',
            ?_, ?_, ?_⟩
          · simp [entries, peNode]
          · intro hpc
            subst hpc
            exact hcommon
          · cases pc <;> exact hcommon

end RB23

namespace RB23

variable {K V : Type}

theorem blackenRoot_isBlack (t : Tree K V) :
    nodeIsBlackB (blackenRoot t) = true := by
  cases t <;> rfl

theorem blackenRoot_notRed (t : Tree K V) :
    nodeIsRedB (blackenRoot t) = false := by
  cases t <;> rfl

theorem blackenRoot_of_black {t : Tree K V} (h : nodeIsBlackB t = true) :
    blackenRoot t = t := by
  cases t with
  | nil => rfl
  | node c k v l r =>
    cases c with
    | black => rfl
    | red => simp [nodeIsBlackB] at h

theorem rem_fixup_nil (cur : Tree K V) :
    rem_fixup cur [] = some (blackenRoot cur) := rfl

theorem rem_fixup_blkS_done {cur t : Tree K V} (pc : Color) (pk : K) (pv : V)
    (pd : Dir) (sk : K) (sv : V) (sl sr : Tree K V)
    (rest : List (PathEntry K V))
    (h : rem_inner cur ⟨pc, pk, pv, pd, .node .black sk sv sl sr⟩ = .done t) :
    rem_fixup cur (⟨pc, pk, pv, pd, .node .black sk sv sl sr⟩ :: rest) =
      some (plug t rest) := by
  rw [rem_fixup.eq_def]
  simp [h]

theorem rem_fixup_blkS_climb_nil {cur t : Tree K V} (pc : Color) (pk : K)
    (pv : V) (pd : Dir) (sk : K) (sv : V) (sl sr : Tree K V)
    (h : rem_inner cur ⟨pc, pk, pv, pd, .node .black sk sv sl sr⟩ = .climb t) :
    rem_fixup cur [⟨pc, pk, pv, pd, .node .black sk sv sl sr⟩] =
      some (blackenRoot t) := by
  rw [rem_fixup.eq_def]
  simp [h]

theorem rem_fixup_blkS_climb_cont {cur t : Tree K V} (pk : K) (pv : V)
    (pd : Dir) (sk : K) (sv : V) (sl sr : Tree K V) (r : PathEntry K V)
    (rs : List (PathEntry K V))
    (h : rem_inner cur ⟨.black, pk, pv, pd, .node .black sk sv sl sr⟩ = .climb t) :
    rem_fixup cur (⟨.black, pk, pv, pd, .node .black sk sv sl sr⟩ :: r :: rs) =
      rem_fixup t (r :: rs) := by
  rw [rem_fixup.eq_def]
  simp [h]

theorem rem_fixup_blkS_climb_exit {cur t : Tree K V} (pk : K) (pv : V)
    (pd : Dir) (sk : K) (sv : V) (sl sr : Tree K V) (r : PathEntry K V)
    (rs : List (PathEntry K V))
    (h : rem_inner cur ⟨.red, pk, pv, pd, .node .black sk sv sl sr⟩ = .climb t) :
    rem_fixup cur (⟨.red, pk, pv, pd, .node .black sk sv sl sr⟩ :: r :: rs) =
      some (plug (blackenRoot t) (r :: rs)) := by
  rw [rem_fixup.eq_def]
  simp [h]

theorem rem_fixup_redS_l_done {cur t : Tree K V} (pc : Color) (pk : K)
    (pv : V) (sk : K) (sv : V) (sl sr : Tree K V)
    (rest : List (PathEntry K V))
    (h : rem_inner cur ⟨.red, pk, pv, .left, sl⟩ = .done t) :
    rem_fixup cur (⟨pc, pk, pv, .left, .node .red sk sv sl sr⟩ :: rest) =
      some (plug t (⟨pc, sk, sv, .left, sr⟩ :: rest)) := by
  rw [rem_fixup.eq_def]
  simp [node_rotate, peNode, h]

theorem rem_fixup_redS_l_climb {cur t : Tree K V} (pc : Color) (pk : K)
    (pv : V) (sk : K) (sv : V) (sl sr : Tree K V)
    (rest : List (PathEntry K V))
    (h : rem_inner cur ⟨.red, pk, pv, .left, sl⟩ = .climb t) :
    rem_fixup cur (⟨pc, pk, pv, .left, .node .red sk sv sl sr⟩ :: rest) =
      some (plug (blackenRoot t) (⟨pc, sk, sv, .left, sr⟩ :: rest)) := by
  rw [rem_fixup.eq_def]
  simp [node_rotate, peNode, h]

theorem rem_fixup_redS_r_done {cur t : Tree K V} (pc : Color) (pk : K)
    (pv : V) (sk : K) (sv : V) (sl sr : Tree K V)
    (rest : List (PathEntry K V))
    (h : rem_inner cur ⟨.red, pk, pv, .right, sr⟩ = .done t) :
    rem_fixup cur (⟨pc, pk, pv, .right, .node .red sk sv sl sr⟩ :: rest) =
      some (plug t (⟨pc, sk, sv, .right, sl⟩ :: rest)) := by
  rw [rem_fixup.eq_def]
  simp [node_rotate, peNode, h]

theorem rem_fixup_redS_r_climb {cur t : Tree K V} (pc : Color) (pk : K)
    (pv : V) (sk : K) (sv : V) (sl sr : Tree K V)
    (rest : List (PathEntry K V))
    (h : rem_inner cur ⟨.red, pk, pv, .right, sr⟩ = .climb t) :
    rem_fixup cur (⟨pc, pk, pv, .right, .node .red sk sv sl sr⟩ :: rest) =
      some (plug (blackenRoot t) (⟨pc, sk, sv, .right, sl⟩ :: rest)) := by
  rw [rem_fixup.eq_def]
  simp [node_rotate, peNode, h]

end RB23

namespace RB23

variable {K V : Type}

/-- The bottom-up pass of `map_remove` repairs a one-black deficit: with a
valid black-rooted current subtree one black short of what the path
expects, it succeeds (never dereferencing an absent sibling) and yields a
black-rooted tree accepted by the checker with unchanged entries. -/
theorem rem_fixup_ok : ∀ (fuel : Nat) {path : List (PathEntry K V)},
    path.length ≤ fuel → ∀ {cur : Tree K V} {n : Nat},
    node_check (some Color.red) cur = some n →
    PathOK path (n + 1) → LastBlack path →
    ∃ t, rem_fixup cur path = some t ∧ (∃ N, node_check none t = some N) ∧
      nodeIsBlackB t = true ∧ entries t = entries (plug cur path) := by
  intro fuel
  induction fuel with
  | zero =>
    intro path hlen cur n hcur hpok hlb
    have hpath : path = [] := by
      cases path with
      | nil => rfl
      | cons e rest => simp at hlen
    subst hpath
    have hb := node_check_red_root_black hcur
    refine ⟨blackenRoot cur, rem_fixup_nil cur, ⟨n, ?_⟩, blackenRoot_isBlack cur,
      by rw [blackenRoot_entries]; rfl⟩
    rw [blackenRoot_of_black hb, node_check_none_eq]
    exact node_check_black_of_red hcur
  | succ f ih =>
    intro path hlen cur n hcur hpok hlb
    cases path with
    | nil =>
      have hb := node_check_red_root_black hcur
      refine ⟨blackenRoot cur, rem_fixup_nil cur, ⟨n, ?_⟩,
        blackenRoot_isBlack cur, by rw [blackenRoot_entries]; rfl⟩
      rw [blackenRoot_of_black hb, node_check_none_eq]
      exact node_check_black_of_red hcur
    | cons p rest =>
      obtain ⟨pc, pk, pv, pd, S⟩ := p
      obtain ⟨hsib, hredc, hrest⟩ := hpok
      have hn1 : 1 ≤ n := node_check_pos hcur
      cases S with
      | nil =>
        exfalso
        have := node_check_nil_val hsib
        omega
      | node sc sk sv sl sr =>
        cases sc with
        | black =>
          rcases rem_inner_ok pk pv pd hcur hsib rfl with
            ⟨t, hstep, hent, hcont, hblk⟩ | ⟨t, hstep, hent, hchkt, hredt, hblkt⟩
          · -- climb
            cases rest with
            | nil =>
              refine ⟨blackenRoot t,
                rem_fixup_blkS_climb_nil pc pk pv pd sk sv sl sr hstep,
                ⟨n + 1, ?_⟩, blackenRoot_isBlack t, ?_⟩
              · rw [node_check_none_eq]
                exact node_check_black_of_red hblk
              · rw [blackenRoot_entries, hent]
                rfl
            | cons r rs =>
              have hlb' : LastBlack (r :: rs) := hlb
              cases pc with
              | black =>
                have hlen' : (r :: rs).length ≤ f := by
                  simp at hlen ⊢
                  omega
                have hrest' : PathOK (r :: rs) ((n + 1) + 1) := by
                  simpa using hrest
                obtain ⟨t2, heq2, hchk2, hblk2, hent2⟩ :=
                  ih hlen' (hcont rfl) hrest' hlb'
                refine ⟨t2, ?_, hchk2, hblk2, ?_⟩
                · rw [rem_fixup_blkS_climb_cont pk pv pd sk sv sl sr r rs hstep]
                  exact heq2
                · rw [hent2, show plug cur
                    (⟨Color.black, pk, pv, pd, .node .black sk sv sl sr⟩ :: r :: rs) =
                    plug (peNode ⟨Color.black, pk, pv, pd,
                      .node .black sk sv sl sr⟩ cur) (r :: rs) from rfl,
                    entries_plug, entries_plug, hent]
              | red =>
                have hrest' : PathOK (r :: rs) (n + 1) := by
                  simpa using hrest
                refine ⟨plug (blackenRoot t) (r :: rs),
                  rem_fixup_blkS_climb_exit pk pv pd sk sv sl sr r rs hstep,
                  ?_, rootBlack_plug (by simp) hlb', ?_⟩
                · refine node_check_plug hrest'
                    (node_check_black_of_red hblk) ?_
                  intro hr
                  rw [blackenRoot_notRed] at hr
                  cases hr
                · rw [show plug cur
                    (⟨Color.red, pk, pv, pd, .node .black sk sv sl sr⟩ :: r :: rs) =
                    plug (peNode ⟨Color.red, pk, pv, pd,
                      .node .black sk sv sl sr⟩ cur) (r :: rs) from rfl,
                    entries_plug, entries_plug, blackenRoot_entries, hent]
          · -- done
            refine ⟨plug t rest,
              rem_fixup_blkS_done pc pk pv pd sk sv sl sr rest hstep, ?_, ?_, ?_⟩
            · refine node_check_plug (by simpa using hrest) hchkt ?_
              intro hr
              obtain ⟨g, rest', hre, hgc, hgs⟩ := hredc (hredt hr)
              subst hre
              exact ⟨hgc, hgs⟩
            · cases rest with
              | nil =>
                have hpcb : pc = Color.black := hlb
                exact hblkt hpcb
              | cons r rs =>
                exact rootBlack_plug (by simp) hlb
            · rw [show plug cur
                (⟨pc, pk, pv, pd, .node .black sk sv sl sr⟩ :: rest) =
                plug (peNode ⟨pc, pk, pv, pd,
                  .node .black sk sv sl sr⟩ cur) rest from rfl,
                entries_plug, entries_plug, hent]
        | red =>
          -- Figure 13c: red sibling
          have hpcb : pc = Color.black := node_check_red_parent_black hsib rfl
          subst hpcb
          have hdec := hsib
          rw [node_check_node] at hdec
          obtain ⟨-, -, m, hsl, hsr, hm⟩ := hdec
          have hmn : m = n + 1 := by simp at hm; omega
          rw [hmn] at hsl hsr
          have hlbg : ∀ (gk0 : K) (gv0 : V) (gd0 : Dir) (gs0 : Tree K V),
              LastBlack (⟨Color.black, gk0, gv0, gd0, gs0⟩ :: rest) := by
            intro gk0 gv0 gd0 gs0
            refine lastBlack_intro (fun _ => rfl) ?_
            cases rest with
            | nil => trivial
            | cons r rs => exact hlb
          cases pd with
          | left =>
            have hgpok : PathOK (⟨Color.black, sk, sv, .left, sr⟩ :: rest)
                (n + 1) := by
              refine ⟨?_, fun hc => Color.noConfusion hc, by simpa using hrest⟩
              rw [node_check_pc_irrel (node_check_red_root_black hsr)
                (some Color.black) (some Color.red)]
              exact hsr
            rcases rem_inner_ok pk pv Dir.left hcur hsl
              (node_check_red_root_black hsl) with
              ⟨t, hstep, hent, -, hblk⟩ | ⟨t, hstep, hent, hchkt, hredt, -⟩
            · refine ⟨plug (blackenRoot t) (⟨Color.black, sk, sv, .left, sr⟩ :: rest),
                rem_fixup_redS_l_climb Color.black pk pv sk sv sl sr rest hstep,
                ?_, rootBlack_plug (by simp) (hlbg sk sv .left sr), ?_⟩
              · refine node_check_plug hgpok (node_check_black_of_red hblk) ?_
                intro hr
                rw [blackenRoot_notRed] at hr
                cases hr
              · rw [show plug cur
                  (⟨Color.black, pk, pv, .left, .node .red sk sv sl sr⟩ :: rest) =
                  plug (peNode ⟨Color.black, pk, pv, .left,
                    .node .red sk sv sl sr⟩ cur) rest from rfl,
                  show plug (blackenRoot t)
                    (⟨Color.black, sk, sv, .left, sr⟩ :: rest) =
                  plug (peNode ⟨Color.black, sk, sv, .left, sr⟩
                    (blackenRoot t)) rest from rfl,
                  entries_plug, entries_plug]
                simp [peNode, entries, blackenRoot_entries, hent,
                  List.append_assoc]
            · refine ⟨plug t (⟨Color.black, sk, sv, .left, sr⟩ :: rest),
                rem_fixup_redS_l_done Color.black pk pv sk sv sl sr rest hstep,
                ?_, rootBlack_plug (by simp) (hlbg sk sv .left sr), ?_⟩
              · refine node_check_plug hgpok (by simpa using hchkt) ?_
                intro hr
                exact ⟨rfl, node_check_red_root_black hsr⟩
              · rw [show plug cur
                  (⟨Color.black, pk, pv, .left, .node .red sk sv sl sr⟩ :: rest) =
                  plug (peNode ⟨Color.black, pk, pv, .left,
                    .node .red sk sv sl sr⟩ cur) rest from rfl,
                  show plug t (⟨Color.black, sk, sv, .left, sr⟩ :: rest) =
                  plug (peNode ⟨Color.black, sk, sv, .left, sr⟩ t) rest from rfl,
                  entries_plug, entries_plug]
                simp [peNode, entries, hent, List.append_assoc]
          | right =>
            have hgpok : PathOK (⟨Color.black, sk, sv, .right, sl⟩ :: rest)
                (n + 1) := by
              refine ⟨?_, fun hc => Color.noConfusion hc, by simpa using hrest⟩
              rw [node_check_pc_irrel (node_check_red_root_black hsl)
                (some Color.black) (some Color.red)]
              exact hsl
            rcases rem_inner_ok pk pv Dir.right hcur hsr
              (node_check_red_root_black hsr) with
              ⟨t, hstep, hent, -, hblk⟩ | ⟨t, hstep, hent, hchkt, hredt, -⟩
            · refine ⟨plug (blackenRoot t) (⟨Color.black, sk, sv, .right, sl⟩ :: rest),
                rem_fixup_redS_r_climb Color.black pk pv sk sv sl sr rest hstep,
                ?_, rootBlack_plug (by simp) (hlbg sk sv .right sl), ?_⟩
              · refine node_check_plug hgpok (node_check_black_of_red hblk) ?_
                intro hr
                rw [blackenRoot_notRed] at hr
                cases hr
              · rw [show plug cur
                  (⟨Color.black, pk, pv, .right, .node .red sk sv sl sr⟩ :: rest) =
                  plug (peNode ⟨Color.black, pk, pv, .right,
                    .node .red sk sv sl sr⟩ cur) rest from rfl,
                  show plug (blackenRoot t)
                    (⟨Color.black, sk, sv, .right, sl⟩ :: rest) =
                  plug (peNode ⟨Color.black, sk, sv, .right, sl⟩
                    (blackenRoot t)) rest from rfl,
                  entries_plug, entries_plug]
                simp [peNode, entries, blackenRoot_entries, hent,
                  List.append_assoc]
            · refine ⟨plug t (⟨Color.black, sk, sv, .right, sl⟩ :: rest),
                rem_fixup_redS_r_done Color.black pk pv sk sv sl sr rest hstep,
                ?_, rootBlack_plug (by simp) (hlbg sk sv .right sl), ?_⟩
              · refine node_check_plug hgpok (by simpa using hchkt) ?_
                intro hr
                exact ⟨rfl, node_check_red_root_black hsl⟩
              · rw [show plug cur
                  (⟨Color.black, pk, pv, .right, .node .red sk sv sl sr⟩ :: rest) =
                  plug (peNode ⟨Color.black, pk, pv, .right,
                    .node .red sk sv sl sr⟩ cur) rest from rfl,
                  show plug t (⟨Color.black, sk, sv, .right, sl⟩ :: rest) =
                  plug (peNode ⟨Color.black, sk, sv, .right, sl⟩ t) rest from rfl,
                  entries_plug, entries_plug]
                simp [peNode, entries, hent, List.append_assoc]

end RB23

namespace RB23

variable {K V : Type}

theorem lpart_append (a b : List (PathEntry K V)) :
    lpart (a ++ b) = lpart b ++ lpart a := by
  induction a with
  | nil => simp [lpart]
  | cons e rest ih => simp [lpart, ih, List.append_assoc]

theorem rpart_append (a b : List (PathEntry K V)) :
    rpart (a ++ b) = rpart a ++ rpart b := by
  induction a with
  | nil => simp [rpart]
  | cons e rest ih => simp [rpart, ih, List.append_assoc]

/-- Reconstruction along the rightmost spine walked by `node_xmost_node`. -/
theorem spineMax_plug : ∀ {t : Tree K V} {acc : List (PathEntry K V)}
    {pc0 : Color} {pk0 : K} {pv0 : V} {pl0 : Tree K V}
    {rel : List (PathEntry K V)},
    spineMax t acc = some (pc0, pk0, pv0, pl0, rel) →
    plug (.node pc0 pk0 pv0 pl0 .nil) rel = plug t acc := by
  intro t
  induction t with
  | nil => intro acc pc0 pk0 pv0 pl0 rel h; cases h
  | node c k v l r ihl ihr =>
    intro acc pc0 pk0 pv0 pl0 rel h
    cases r with
    | nil =>
      rw [spineMax] at h
      simp only [Option.some.injEq, Prod.mk.injEq] at h
      obtain ⟨h1, h2, h3, h4, h5⟩ := h
      subst h1; subst h2; subst h3; subst h4; subst h5
      rfl
    | node rc rk rv rl rr =>
      rw [spineMax] at h
      exact ihr h

/-- The spine path is made of right turns only. -/
theorem spineMax_dirs : ∀ {t : Tree K V} {acc : List (PathEntry K V)}
    {pc0 : Color} {pk0 : K} {pv0 : V} {pl0 : Tree K V}
    {rel : List (PathEntry K V)},
    spineMax t acc = some (pc0, pk0, pv0, pl0, rel) →
    (∀ e ∈ acc, e.dir = Dir.right) → ∀ e ∈ rel, e.dir = Dir.right := by
  intro t
  induction t with
  | nil => intro acc pc0 pk0 pv0 pl0 rel h; cases h
  | node c k v l r ihl ihr =>
    intro acc pc0 pk0 pv0 pl0 rel h hacc
    cases r with
    | nil =>
      rw [spineMax] at h
      simp only [Option.some.injEq, Prod.mk.injEq] at h
      obtain ⟨-, -, -, -, h5⟩ := h
      subst h5
      exact hacc
    | node rc rk rv rl rr =>
      rw [spineMax] at h
      refine ihr h ?_
      intro e he
      rcases List.mem_cons.mp he with rfl | he'
      · rfl
      · exact hacc e he'

theorem rpart_of_all_right {rel : List (PathEntry K V)}
    (h : ∀ e ∈ rel, e.dir = Dir.right) : rpart rel = [] := by
  induction rel with
  | nil => rfl
  | cons e rest ih =>
    rw [rpart, h e (List.mem_cons_self e rest),
      ih (fun x hx => h x (List.mem_cons_of_mem e hx))]
    rfl

/-- Accumulator shift for the spine walk. -/
theorem spineMax_acc : ∀ {t : Tree K V} (acc : List (PathEntry K V)),
    spineMax t acc = (spineMax t []).map
      (fun out => (out.1, out.2.1, out.2.2.1, out.2.2.2.1,
        out.2.2.2.2 ++ acc)) := by
  intro t
  induction t with
  | nil => intro acc; rfl
  | node c k v l r ihl ihr =>
    intro acc
    cases r with
    | nil => rw [spineMax, spineMax]; rfl
    | node rc rk rv rl rr =>
      rw [spineMax, ihr (⟨c, k, v, .right, l⟩ :: acc)]
      conv_rhs => rw [spineMax, ihr [⟨c, k, v, .right, l⟩]]
      cases hx : spineMax (Tree.node rc rk rv rl rr) [] with
      | none => rfl
      | some out => simp

/-- The spine walk on a non-`NULL` tree always finds the rightmost node. -/
theorem spineMax_total : ∀ {t : Tree K V} (acc : List (PathEntry K V))
    (c : Color) (k : K) (v : V) (l r : Tree K V), t = .node c k v l r →
    ∃ pc0 pk0 pv0 pl0 rel, spineMax t acc = some (pc0, pk0, pv0, pl0, rel) := by
  intro t
  induction t with
  | nil => intro acc c k v l r h; cases h
  | node c0 k0 v0 l0 r0 ihl ihr =>
    intro acc c k v l r h
    cases r0 with
    | nil => exact ⟨c0, k0, v0, l0, acc, rfl⟩
    | node rc rk rv rl rr =>
      obtain ⟨a1, a2, a3, a4, a5, hh⟩ :=
        ihr (⟨c0, k0, v0, .right, l0⟩ :: acc) rc rk rv rl rr rfl
      exact ⟨a1, a2, a3, a4, a5, by rw [spineMax]; exact hh⟩

/-- The spine walk preserves the descent-state conditions: the rightmost
node sits in a context satisfying them. -/
theorem spineMax_descSt : ∀ {t : Tree K V} {acc : List (PathEntry K V)}
    {n : Nat}, DescSt t acc n →
    ∀ {pc0 : Color} {pk0 : K} {pv0 : V} {pl0 : Tree K V}
      {rel : List (PathEntry K V)},
    spineMax t acc = some (pc0, pk0, pv0, pl0, rel) →
    ∃ n0, DescSt (.node pc0 pk0 pv0 pl0 .nil) rel n0 := by
  intro t
  induction t with
  | nil =>
    intro acc n hst pc0 pk0 pv0 pl0 rel h
    cases h
  | node c k v l r ihl ihr =>
    intro acc n hst pc0 pk0 pv0 pl0 rel h
    obtain ⟨ht, hp, hlb, hroot, hang⟩ := hst
    rw [node_check_node] at ht
    obtain ⟨hpok, hone, a, hcl, hcr, hn⟩ := ht
    cases r with
    | nil =>
      rw [spineMax] at h
      simp only [Option.some.injEq, Prod.mk.injEq] at h
      obtain ⟨h1, h2, h3, h4, h5⟩ := h
      subst h1; subst h2; subst h3; subst h4; subst h5
      refine ⟨n, ?_⟩
      refine ⟨?_, hp, hlb, hroot, hang⟩
      rw [node_check_node]
      exact ⟨hpok, hone, a, hcl, hcr, hn⟩
    | node rc rk rv rl rr =>
      rw [spineMax] at h
      refine @ihr (⟨c, k, v, .right, l⟩ :: acc) a
        ⟨hcr, ⟨hcl, ?_, ?_⟩, ?_, by simp, ?_⟩ pc0 pk0 pv0 pl0 rel h
      · intro hc
        have hc' : c = Color.red := hc
        exact hang (by simp [nodeIsRedB, hc'])
      · rw [← hn]; exact hp
      · refine lastBlack_intro (fun hacc => ?_) hlb
        subst hacc
        have := hroot rfl
        cases c with
        | black => rfl
        | red => simp [nodeIsBlackB] at this
      · intro hrr
        refine ⟨⟨c, k, v, .right, l⟩, acc, rfl,
          node_check_red_parent_black hcr hrr, ?_⟩
        rcases Bool.or_eq_true_iff.mp hone with hb | hb
        · exact hb
        · exfalso
          cases rc with
          | black => simp [nodeIsRedB] at hrr
          | red => simp [nodeIsBlackB] at hb

end RB23

namespace RB23

variable {K V : Type}

theorem chk_red_one_nil {t : Tree K V}
    (h : node_check (some Color.red) t = some 1) : t = .nil := by
  cases t with
  | nil => rfl
  | node c k v l r =>
    exfalso
    have hb : c = Color.black := by
      have := node_check_red_root_black h
      cases c with
      | black => rfl
      | red => simp [nodeIsBlackB] at this
    subst hb
    rw [node_check_node] at h
    obtain ⟨-, -, a, hl, -, hn⟩ := h
    have := node_check_pos hl
    simp at hn
    omega

theorem chk_one_node {c lc : Color} {lk : K} {lv : V} {ll lr : Tree K V}
    (h : node_check (some c) (.node lc lk lv ll lr) = some 1) :
    lc = Color.red ∧ c = Color.black ∧ ll = .nil ∧ lr = .nil := by
  rw [node_check_node] at h
  obtain ⟨hpk, -, a, hl, hr, hn⟩ := h
  have ha := node_check_pos hl
  have hlc : lc = Color.red := by
    cases lc with
    | red => rfl
    | black => simp at hn; omega
  subst hlc
  have ha1 : a = 1 := by simp at hn; omega
  subst ha1
  refine ⟨rfl, ?_, chk_red_one_nil hl, chk_red_one_nil hr⟩
  cases c with
  | black => rfl
  | red => simp [parentOkB] at hpk

/-- Lines 395–414 plus the bottom-up pass: removing the node with the
descent-state conditions succeeds and drops exactly its entry. -/
theorem removeAt_ok {c : Color} {k0 : K} {v0 : V} {l r : Tree K V}
    {path : List (PathEntry K V)} {n : Nat} (count : Nat)
    (hst : DescSt (.node c k0 v0 l r) path n)
    (honechild : l = .nil ∨ r = .nil) :
    ∃ t, removeAt c l r path count = some ⟨t, count - 1⟩ ∧
      (∃ N, node_check none t = some N) ∧ nodeIsBlackB t = true ∧
      entries t = lpart path ++ (entries l ++ entries r) ++ rpart path := by
  obtain ⟨ht, hpok, hlb, hroot, hang⟩ := hst
  rw [node_check_node] at ht
  obtain ⟨hpk, hone2, a, hcl, hcr, hn⟩ := ht
  cases l with
  | node lc lk lv ll lr =>
    rcases honechild with hch | hch
    · exact absurd hch (by simp)
    · subst hch
      have ha : a = 1 := by
        have := node_check_nil_val hcr
        omega
      subst ha
      obtain ⟨hlc, hcb, hll, hlr⟩ := chk_one_node hcl
      subst hlc; subst hcb; subst hll; subst hlr
      refine ⟨plug (.node .black lk lv .nil .nil) path, rfl, ?_, ?_, ?_⟩
      · refine plug_check_of_descSt (n := 2) (chk_black_join (pcOf path) rfl rfl)
          (by rw [show (1 : Nat) + (if Color.black = Color.black then 1 else 0) = 2
            from rfl] at hn; rw [← hn]; exact hpok) ?_
        intro hr
        simp [nodeIsRedB] at hr
      · cases path with
        | nil => rfl
        | cons e rest => exact rootBlack_plug (by simp) hlb
      · rw [entries_plug]
        simp [entries]
  | nil =>
    cases r with
    | node rc rk rv rl rr =>
      have ha : a = 1 := by
        have := node_check_nil_val hcl
        omega
      subst ha
      obtain ⟨hrc, hcb, hrl, hrr⟩ := chk_one_node hcr
      subst hrc; subst hcb; subst hrl; subst hrr
      refine ⟨plug (.node .black rk rv .nil .nil) path, rfl, ?_, ?_, ?_⟩
      · refine plug_check_of_descSt (n := 2) (chk_black_join (pcOf path) rfl rfl)
          (by rw [show (1 : Nat) + (if Color.black = Color.black then 1 else 0) = 2
            from rfl] at hn; rw [← hn]; exact hpok) ?_
        intro hr
        simp [nodeIsRedB] at hr
      · cases path with
        | nil => rfl
        | cons e rest => exact rootBlack_plug (by simp) hlb
      · rw [entries_plug]
        simp [entries]
    | nil =>
      have ha : a = 1 := by
        have := node_check_nil_val hcl
        omega
      subst ha
      cases c with
      | red =>
        have hn1 : n = 1 := by simp at hn; omega
        refine ⟨plug .nil path, rfl, ?_, ?_, ?_⟩
        · refine plug_check_of_descSt (n := 1) rfl (hn1 ▸ hpok) ?_
          intro hr
          cases hr
        · cases path with
          | nil => rfl
          | cons e rest => exact rootBlack_plug (by simp) hlb
        · rw [entries_plug]
          simp [entries]
      | black =>
        have hn2 : n = 2 := by simp at hn; omega
        cases path with
        | nil =>
          exact ⟨.nil, rfl, ⟨1, rfl⟩, rfl, by simp [entries, lpart, rpart]⟩
        | cons p rest =>
          obtain ⟨t, hfix, hchk, hblk, hent⟩ :=
            rem_fixup_ok (p :: rest).length (le_refl _)
              (show node_check (some Color.red) (.nil : Tree K V) = some 1
                from rfl)
              (by have h12 : (1 : Nat) + 1 = n := by omega
                  rw [h12]
                  exact hpok) hlb
          refine ⟨t, ?_, hchk, hblk, ?_⟩
          · rw [removeAt]
            simp [hfix]
          · rw [hent, entries_plug]
            simp [entries]

end RB23

namespace RB23

variable {K V : Type} {cmp : K → K → Int}

/-- `map_remove`: reports whether the key was found, never dereferences an
absent node, keeps the invariant, and its entries are the sorted-list
removal. -/
theorem map_remove_main (L : LawfulCmp cmp) {m : Map K V} (hInv : Inv cmp m)
    (key : K) :
    ∃ b m', map_remove cmp m key = some (b, m') ∧ Inv cmp m' ∧
      entries m'.root = delList cmp key (entries m.root) := by
  obtain ⟨⟨N, hchk⟩, hblack, hsort, hcount⟩ := hInv
  have hnotred : nodeIsRedB m.root = false := by
    cases hx : nodeIsRedB m.root
    · rfl
    · exfalso
      obtain ⟨k', v', l', r', hsh⟩ := red_shape hx
      rw [hsh] at hblack
      simp [nodeIsBlackB] at hblack
  have hst : DescSt m.root ([] : List (PathEntry K V)) N :=
    ⟨hchk, trivial, trivial, fun _ => hblack,
      fun hr => by rw [hnotred] at hr; cases hr⟩
  have hbst : bstP cmp m.root := bstP_of_sorted L (by
    rw [show (keysT m.root) = (entries m.root).map Prod.fst from rfl]
    exact sortedE_iff_keys.mp hsort)
  cases hd : descend cmp key m.root [] with
  | notFound p =>
    refine ⟨false, m, by rw [map_remove, hd],
      ⟨⟨N, hchk⟩, hblack, hsort, hcount⟩, ?_⟩
    obtain ⟨hplug, -⟩ := descend_notFound_plug hd
    have hplug2 : m.root = plug (.nil : Tree K V) p := hplug.symm
    obtain ⟨hlo, hhi⟩ := (descend_bounds L hbst lowAll_lpart_nil
      highAll_rpart_nil).1 p hd
    have hEold : entries m.root = lpart p ++ rpart p := by
      conv_lhs => rw [hplug2]
      rw [entries_plug]
      simp [entries]
    rw [hEold, delList_append_ne (fun e he => by have := hlo e he; omega),
      delList_high hhi]
  | found c k0 v0 l r p =>
    obtain ⟨hplug, hc0, -⟩ := descend_found_plug hd
    have hplug2 : m.root = plug (.node c k0 v0 l r) p := hplug.symm
    obtain ⟨hlo, hhi, hbnode⟩ :=
      ((descend_bounds L hbst lowAll_lpart_nil highAll_rpart_nil).2)
        c k0 v0 l r p hd
    obtain ⟨n', hstf⟩ := (descend_descSt hst).2 c k0 v0 l r p hd
    have hEold : entries m.root =
        (lpart p ++ entries l) ++ (k0, v0) :: (entries r ++ rpart p) := by
      conv_lhs => rw [hplug2]
      rw [entries_plug, entries]
      simp [List.append_assoc]
    have hlow2 : ∀ e ∈ lpart p ++ entries l, cmp key e.1 > 0 := by
      intro e he
      rcases List.mem_append.mp he with he | he
      · exact hlo e he
      · have h1 := hbnode.1 e.1 (mem_keysT_of_mem_entries he)
        have h2 := L.lt_of_lt_of_eq h1 (L.zero_symm hc0)
        exact L.lt_asym h2
    have hdelchar : delList cmp key (entries m.root) =
        (lpart p ++ entries l) ++ (entries r ++ rpart p) := by
      rw [hEold, delList_append_ne (fun e he => by have := hlow2 e he; omega),
        delList_eq_head hc0]
    have hcnt : m.count =
        ((lpart p ++ entries l) ++ (entries r ++ rpart p)).length + 1 := by
      rw [hEold] at hcount
      simp at hcount ⊢
      omega
    cases l with
    | nil =>
      obtain ⟨t, hrem, hchk', hblk', hent'⟩ :=
        removeAt_ok m.count hstf (Or.inl rfl)
      have hfinal : entries t = delList cmp key (entries m.root) := by
        rw [hent', hdelchar]
        simp [entries, List.append_assoc]
      refine ⟨true, ⟨t, m.count - 1⟩, ?_, ⟨hchk', hblk', ?_, ?_⟩, hfinal⟩
      · rw [map_remove, hd]
        simp [hrem]
      · rw [show entries (Map.mk t (m.count - 1)).root = entries t from rfl,
          hfinal]
        exact delList_sorted L hsort
      · rw [show entries (Map.mk t (m.count - 1)).root = entries t from rfl,
          hfinal, hdelchar]
        show m.count - 1 = _
        omega
    | node lc lk lv ll lr =>
      cases r with
      | nil =>
        obtain ⟨t, hrem, hchk', hblk', hent'⟩ :=
          removeAt_ok m.count hstf (Or.inr rfl)
        have hfinal : entries t = delList cmp key (entries m.root) := by
          rw [hent', hdelchar]
          simp [entries, List.append_assoc]
        refine ⟨true, ⟨t, m.count - 1⟩, ?_, ⟨hchk', hblk', ?_, ?_⟩, hfinal⟩
        · rw [map_remove, hd]
          simp [hrem]
        · rw [show entries (Map.mk t (m.count - 1)).root = entries t from rfl,
            hfinal]
          exact delList_sorted L hsort
        · rw [show entries (Map.mk t (m.count - 1)).root = entries t from rfl,
            hfinal, hdelchar]
          show m.count - 1 = _
          omega
      | node rc rk rv rl rr =>
        -- two children: swap with the in-order predecessor of the left child
        obtain ⟨pc0, pk0, pv0, pl0, rel0, hsp0⟩ :=
          spineMax_total ([] : List (PathEntry K V)) lc lk lv ll lr rfl
        obtain ⟨htN, hpokN, hlbN, hrootN, hangN⟩ := hstf
        have hdecN := htN
        rw [node_check_node] at hdecN
        obtain ⟨hpkN, honeN, a, hclN, hcrN, hnN⟩ := hdecN
        set tE : PathEntry K V := ⟨c, pk0, pv0, .left, .node rc rk rv rl rr⟩
          with htE
        have hstL : DescSt (.node lc lk lv ll lr) (tE :: p) a := by
          refine ⟨hclN, ⟨hcrN, ?_, ?_⟩, ?_, fun h => List.noConfusion h, ?_⟩
          · intro hc
            have hc' : c = Color.red := hc
            exact hangN (by rw [hc']; rfl)
          · rw [← hnN]
            exact hpokN
          · refine lastBlack_intro (fun hp0 => ?_) hlbN
            subst hp0
            have := hrootN rfl
            cases c with
            | black => rfl
            | red => simp [nodeIsBlackB] at this
          · intro hlr
            refine ⟨tE, p, rfl, node_check_red_parent_black hclN hlr, ?_⟩
            rcases Bool.or_eq_true_iff.mp honeN with hb | hb
            · exfalso
              obtain ⟨a1, a2, a3, a4, hsh⟩ := red_shape hlr
              rw [hsh] at hb
              simp [nodeIsBlackB] at hb
            · exact hb
        have hspFull : spineMax (.node lc lk lv ll lr) (tE :: p) =
            some (pc0, pk0, pv0, pl0, rel0 ++ tE :: p) := by
          rw [spineMax_acc (tE :: p), hsp0]
          rfl
        obtain ⟨n0, hstPred⟩ := spineMax_descSt hstL hspFull
        obtain ⟨t, hrem, hchk', hblk', hent'⟩ :=
          removeAt_ok m.count hstPred (Or.inr rfl)
        have hdirs : ∀ e ∈ rel0, e.dir = Dir.right :=
          spineMax_dirs hsp0 (fun e he => absurd he (List.not_mem_nil e))
        have hrp0 : rpart rel0 = [] := rpart_of_all_right hdirs
        have hlplug : plug (.node pc0 pk0 pv0 pl0 .nil) rel0 =
            .node lc lk lv ll lr := spineMax_plug hsp0
        have hEl : entries (.node lc lk lv ll lr : Tree K V) =
            lpart rel0 ++ entries pl0 ++ [(pk0, pv0)] := by
          rw [← hlplug, entries_plug, hrp0, entries]
          simp [List.append_assoc, entries]
        have hfinal : entries t = delList cmp key (entries m.root) := by
          rw [hent', hdelchar, lpart_append, rpart_append, hrp0, hEl]
          rw [show lpart (tE :: p) = lpart p by rw [htE, lpart]; simp]
          rw [show rpart (tE :: p) =
            (pk0, pv0) :: entries (.node rc rk rv rl rr : Tree K V) ++ rpart p
            by rw [htE, rpart]]
          simp [entries, List.append_assoc]
        refine ⟨true, ⟨t, m.count - 1⟩, ?_, ⟨hchk', hblk', ?_, ?_⟩, hfinal⟩
        · rw [map_remove, hd]
          simp only []
          rw [hsp0]
          simp [hrem]
        · rw [show entries (Map.mk t (m.count - 1)).root = entries t from rfl,
            hfinal]
          exact delList_sorted L hsort
        · rw [show entries (Map.mk t (m.count - 1)).root = entries t from rfl,
            hfinal, hdelchar]
          show m.count - 1 = _
          omega

end RB23

namespace RB23

variable {K V : Type} {cmp : K → K → Int}

/-- One step of the sorted-list model of the map: an insertion becomes
`insList`, a removal becomes `delList`. -/
def modelStep (cmp : K → K → Int) (E : List (K × V)) : Op K V → List (K × V)
  | .ins k v => insList cmp k v E
  | .del k => delList cmp k E

/-- The sorted association list denoted by a sequence of operations run
from the empty map. -/
def modelList (cmp : K → K → Int) (ops : List (Op K V)) : List (K × V) :=
  ops.foldl (modelStep cmp) []

/-- The value of the last write of `key` in a sequence of operations: the
last `insert(k, v)` with `k` equal to `key` wins, unless a later
`remove(k)` intervenes, in which case the key is absent. -/
def lastWrite (cmp : K → K → Int) (key : K) (ops : List (Op K V)) : Option V :=
  ops.foldl (fun acc op => match op with
    | .ins k v => if cmp key k = 0 then some v else acc
    | .del k => if cmp key k = 0 then none else acc) none

theorem foldlM_cons_opt {α β : Type} (f : β → α → Option β) (b : β) (a : α)
    (l : List α) :
    List.foldlM f b (a :: l) = f b a >>= fun x => List.foldlM f x l := by
  rfl

/-- Running operations from any invariant-satisfying map succeeds, keeps
the invariant, and folds the list model over the entries. -/
theorem mapExec_go (L : LawfulCmp cmp) : ∀ (ops : List (Op K V)) (m : Map K V),
    Inv cmp m → ∃ m', List.foldlM (mapStep cmp) m ops = some m' ∧ Inv cmp m' ∧
      entries m'.root = ops.foldl (modelStep cmp) (entries m.root) := by
  intro ops
  induction ops with
  | nil => exact fun m hm => ⟨m, rfl, hm, rfl⟩
  | cons op rest ih =>
    intro m hm
    cases op with
    | ins k v =>
      obtain ⟨m1, hstep, hinv1, hent1⟩ := map_insert_main L hm k v
      obtain ⟨m', hrest, hinv', hent'⟩ := ih m1 hinv1
      refine ⟨m', ?_, hinv', ?_⟩
      · rw [foldlM_cons_opt]
        show (map_insert cmp true m k v).map (·.2) >>= _ = some m'
        rw [hstep]
        exact hrest
      · rw [List.foldl_cons]
        rw [show modelStep cmp (entries m.root) (Op.ins k v) =
          insList cmp k v (entries m.root) from rfl, ← hent1]
        exact hent'
    | del k =>
      obtain ⟨b, m1, hstep, hinv1, hent1⟩ := map_remove_main L hm k
      obtain ⟨m', hrest, hinv', hent'⟩ := ih m1 hinv1
      refine ⟨m', ?_, hinv', ?_⟩
      · rw [foldlM_cons_opt]
        show (map_remove cmp m k).map (·.2) >>= _ = some m'
        rw [hstep]
        exact hrest
      · rw [List.foldl_cons]
        rw [show modelStep cmp (entries m.root) (Op.del k) =
          delList cmp k (entries m.root) from rfl, ← hent1]
        exact hent'

/-- Running any operation sequence from the empty map succeeds, the
invariant holds, and the entries are the list model. -/
theorem mapExec_ok (L : LawfulCmp cmp) (ops : List (Op K V)) :
    ∃ m, mapExec cmp ops = some m ∧ Inv cmp m ∧
      entries m.root = modelList cmp ops :=
  mapExec_go L ops map_new inv_map_new

/-- Looking a key up in the folded list model follows the fold of the
last-write function. -/
theorem lookList_model (L : LawfulCmp cmp) (key : K) :
    ∀ (ops : List (Op K V)) (E : List (K × V)), SortedE cmp E →
    lookList cmp key (ops.foldl (modelStep cmp) E) =
      ops.foldl (fun acc op => match op with
        | Op.ins k v => if cmp key k = 0 then some v else acc
        | Op.del k => if cmp key k = 0 then none else acc)
        (lookList cmp key E) := by
  intro ops
  induction ops with
  | nil => exact fun E _ => rfl
  | cons op rest ih =>
    intro E hE
    cases op with
    | ins k v =>
      rw [List.foldl_cons, List.foldl_cons]
      rw [show modelStep cmp E (Op.ins k v) = insList cmp k v E from rfl,
        ih (insList cmp k v E) (insList_sorted L hE),
        lookList_insList L key k v E]
    | del k =>
      rw [List.foldl_cons, List.foldl_cons]
      rw [show modelStep cmp E (Op.del k) = delList cmp k E from rfl,
        ih (delList cmp k E) (delList_sorted L hE),
        lookList_delList L key k hE]

end RB23

namespace RB23

variable {K V : Type} {cmp : K → K → Int}

/-- Section-3 invariant 2, first half, stated from the spec's words: no
node has two red children (an absent child counts black). -/
def noTwoRedChildren : Tree K V → Bool
  | .nil => true
  | .node _ _ _ l r =>
    (nodeIsBlackB l || nodeIsBlackB r) && noTwoRedChildren l &&
      noTwoRedChildren r

/-- Section-3 invariant 2, second half, stated from the spec's words: no
red node has a red child (equivalently, no red node has a red parent). -/
def noRedRedEdge : Tree K V → Bool
  | .nil => true
  | .node c _ _ l r =>
    (decide (c = Color.black) || (nodeIsBlackB l && nodeIsBlackB r)) &&
      noRedRedEdge l && noRedRedEdge r

/-- Section-3 invariant 3, stated from the spec's words: every
root-to-leaf path has the same number of black nodes, absent children
counting as one black node; `some d` is that common count. -/
def blackDepth : Tree K V → Option Nat
  | .nil => some 1
  | .node c _ _ l r =>
    match blackDepth l, blackDepth r with
    | some a, some b =>
      if a = b then some (a + (if c = Color.black then 1 else 0)) else none
    | _, _ => none

/-- A subtree the checker accepts under a red parent is black-rooted. -/
theorem chk_red_parent_black_root {t : Tree K V} {n : Nat}
    (h : node_check (some Color.red) t = some n) :
    nodeIsBlackB t = true := by
  cases t with
  | nil => rfl
  | node c k v l r =>
    rw [node_check_node] at h
    obtain ⟨hpk, -, -⟩ := h
    cases c with
    | black => rfl
    | red => simp [parentOkB] at hpk

/-- What `node_check` accepts satisfies the semantic invariants: the black
depths agree (and equal the returned depth), no node has two red children,
and no red node has a red child. -/
theorem node_check_sem : ∀ {t : Tree K V} {pc : Option Color} {n : Nat},
    node_check pc t = some n →
    blackDepth t = some n ∧ noTwoRedChildren t = true ∧
      noRedRedEdge t = true := by
  intro t
  induction t with
  | nil =>
    intro pc n h
    rw [node_check_nil] at h
    exact ⟨by rw [← h]; rfl, rfl, rfl⟩
  | node c k v l r ihl ihr =>
    intro pc n h
    rw [node_check_node] at h
    obtain ⟨hpk, hone, a, hl, hr, hn⟩ := h
    obtain ⟨hbl, h2l, h3l⟩ := ihl hl
    obtain ⟨hbr, h2r, h3r⟩ := ihr hr
    refine ⟨?_, ?_, ?_⟩
    · rw [blackDepth, hbl, hbr]
      simp [hn]
    · simp [noTwoRedChildren, hone, h2l, h2r]
    · simp only [noRedRedEdge, h3l, h3r, Bool.and_true]
      cases c with
      | black => rfl
      | red =>
        have hbl' := chk_red_parent_black_root hl
        have hbr' := chk_red_parent_black_root hr
        simp [hbl', hbr']

/-- Conversely, the semantic invariants make `node_check` accept, provided
a red parent sits above a black root. -/
theorem node_check_of_sem : ∀ {t : Tree K V} {n : Nat} (pc : Option Color),
    blackDepth t = some n → noTwoRedChildren t = true →
    noRedRedEdge t = true →
    (pc = some Color.red → nodeIsBlackB t = true) →
    node_check pc t = some n := by
  intro t
  induction t with
  | nil =>
    intro n pc hbd _ _ _
    rw [blackDepth] at hbd
    rw [node_check_nil, hbd]
  | node c k v l r ihl ihr =>
    intro n pc hbd h2 h3 hpc
    rw [blackDepth] at hbd
    cases hbl : blackDepth l with
    | none => rw [hbl] at hbd; cases hbd
    | some a =>
      cases hbr : blackDepth r with
      | none => rw [hbl, hbr] at hbd; cases hbd
      | some b =>
        rw [hbl, hbr] at hbd
        have hbd' : (if a = b then some (a + if c = Color.black then 1 else 0)
            else none) = some n := hbd
        by_cases hab : a = b
        · rw [if_pos hab] at hbd'
          have hbdn : a + (if c = Color.black then 1 else 0) = n :=
            Option.some.inj hbd'
          subst hab
          simp only [noTwoRedChildren, Bool.and_eq_true] at h2
          obtain ⟨⟨hone, h2l⟩, h2r⟩ := h2
          simp only [noRedRedEdge, Bool.and_eq_true] at h3
          obtain ⟨⟨hcc, h3l⟩, h3r⟩ := h3
          have hchild : c = Color.red →
              nodeIsBlackB l = true ∧ nodeIsBlackB r = true := by
            intro hc
            rw [hc] at hcc
            simp at hcc
            exact hcc
          rw [node_check_node]
          refine ⟨?_, hone, a, ?_, ?_, hbdn.symm⟩
          · cases pc with
            | none => rfl
            | some q =>
              cases q with
              | black => simp [parentOkB]
              | red =>
                have := hpc rfl
                cases c with
                | black => rfl
                | red => simp [nodeIsBlackB] at this
          · exact ihl (some c) hbl h2l h3l
              (fun hq => ((hchild (by injection hq)).1))
          · exact ihr (some c) hbr h2r h3r
              (fun hq => ((hchild (by injection hq)).2))
        · rw [if_neg hab] at hbd'
          cases hbd'

/-- `map_check` passes exactly when the color, red-red, black-depth and
count invariants hold; key order is not among them. -/
theorem map_checkB_iff (m : Map K V) :
    map_checkB m = true ↔
      nodeIsBlackB m.root = true ∧ (∃ d, blackDepth m.root = some d) ∧
      noTwoRedChildren m.root = true ∧ noRedRedEdge m.root = true ∧
      m.count = node_count m.root := by
  rw [map_checkB]
  simp only [Bool.and_eq_true, beq_iff_eq]
  constructor
  · rintro ⟨⟨hblk, hsome⟩, hcnt⟩
    obtain ⟨n, hn⟩ := Option.isSome_iff_exists.mp hsome
    obtain ⟨hbd, h2, h3⟩ := node_check_sem hn
    exact ⟨hblk, ⟨n, hbd⟩, h2, h3, hcnt.symm⟩
  · rintro ⟨hblk, ⟨d, hbd⟩, h2, h3, hcnt⟩
    refine ⟨⟨hblk, ?_⟩, hcnt.symm⟩
    rw [node_check_of_sem none hbd h2 h3 (fun h => Option.noConfusion h)]
    rfl

end RB23

namespace RB23

variable {K V : Type} {cmp : K → K → Int}

/-- The structure of a tree apart from the stored values: the node colors,
the stored keys and the shape.  Two trees with the same `shapeK` share the
same links and the same stored key bytes. -/
def shapeK : Tree K V → Tree K Unit
  | .nil => .nil
  | .node c k _ l r => .node c k () (shapeK l) (shapeK r)

theorem shapeK_peNode (e : PathEntry K V) {t1 t2 : Tree K V}
    (h : shapeK t1 = shapeK t2) :
    shapeK (peNode e t1) = shapeK (peNode e t2) := by
  obtain ⟨ec, ek, ev, ed, es⟩ := e
  cases ed with
  | left => simp [peNode, shapeK, h]
  | right => simp [peNode, shapeK, h]

theorem shapeK_plug {t1 t2 : Tree K V} (h : shapeK t1 = shapeK t2) :
    ∀ p : List (PathEntry K V), shapeK (plug t1 p) = shapeK (plug t2 p) := by
  intro p
  induction p generalizing t1 t2 with
  | nil => exact h
  | cons e rest ih => exact ih (shapeK_peNode e h)

end RB23

namespace RB23

variable {K V : Type} {cmp : K → K → Int}

/-- The descent of the second insert of an overwrite finds the same node
in the same place, now carrying the first inserted value. -/
theorem descend_refound {key k0 : K} {c : Color} {v1 : V} {l r : Tree K V}
    {p : List (PathEntry K V)} (hs : Steers cmp key p) (hc0 : cmp key k0 = 0) :
    descend cmp key (plug (.node c k0 v1 l r) p) [] =
      .found c k0 v1 l r p := by
  rw [descend_plug p _ hs]
  have h1 : ¬cmp key k0 < 0 := by omega
  have h2 : ¬cmp key k0 > 0 := by omega
  cases p with
  | nil => simp [descend, h1, h2]
  | cons e rest => simp [descend, h1, h2]

end RB23

namespace RB23

/-- An IEEE-754 binary32 value, by its bit fields: the sign bit, the
8-bit exponent and the 23-bit fraction.  (Only `ex < 256` and
`frac < 2 ^ 23` patterns correspond to machine floats; the definitions
below use the fields directly and need no range side conditions.) -/
structure F32 where
  sign : Bool
  ex : Nat
  frac : Nat
deriving DecidableEq

namespace F32

/-- `isnan(x)`: all exponent bits set and a non-zero fraction. -/
def isnanF (x : F32) : Bool :=
  decide (x.ex = 255) && !decide (x.frac = 0)

/-- `signbit(x)`. -/
def signbitF (x : F32) : Bool := x.sign

/-- The magnitude bits as one number: binary32 is a sign-magnitude format
in which comparing two non-NaN floats of equal sign compares these bits. -/
def magF (x : F32) : Nat := x.ex * 2 ^ 23 + x.frac

/-- The position of a non-NaN float on the number line, up to monotone
rescaling: the sign applied to the magnitude bits.  For non-NaN `x`, `y`,
the C comparison `x < y` holds exactly when `valF x < valF y` (both
zeros sit at `0`). -/
def valF (x : F32) : Int :=
  (if x.sign then -1 else 1) * (magF x : Int)

end F32

open F32 in
/-- `_float_compare` of `src/comparator.c`: NaNs order below or above
everything by their sign bit, two NaNs compare by sign bits alone, the
two zeros compare by their sign bits (`signbit` distinguishes `-0.0`
from `+0.0`), and any other pair compares by numeric value (`x < y` /
`x > y` rendered through `valF`). -/
def float_compare (x y : F32) : Int :=
  if isnanF x then
    let sx : Int := if signbitF x then -1 else 1
    if isnanF y then
      let sy : Int := if signbitF y then -1 else 1
      if sx < sy then -1 else if sx > sy then 1 else 0
    else sx
  else if isnanF y then
    let sy : Int := if signbitF y then -1 else 1;
    -sy
  else if magF x = 0 ∧ magF y = 0 then
    let sx : Int := if signbitF x then -1 else 1
    let sy : Int := if signbitF y then -1 else 1
    if sx < sy then -1 else if sx > sy then 1 else 0
  else
    if valF x < valF y then -1 else if valF x > valF y then 1 else 0

/-- Two NaNs with equal sign bits compare equal, whatever their payloads. -/
theorem float_compare_nan_same_sign {x y : F32}
    (hx : F32.isnanF x = true) (hy : F32.isnanF y = true)
    (hs : x.sign = y.sign) :
    float_compare x y = 0 := by
  rw [float_compare]
  rw [hx, hy]
  simp only [if_true]
  rw [F32.signbitF, F32.signbitF, hs]
  cases y.sign <;> simp

end RB23

namespace RB23

variable {K V : Type} {cmp : K → K → Int}

/-- The canonical integer comparator satisfies the comparator laws. -/
theorem int_compare_lawful : LawfulCmp int_compare := by
  refine ⟨?_, ?_, ?_⟩
  · intro x
    simp [int_compare]
  · intro x y
    simp only [int_compare]
    split_ifs <;> omega
  · intro x y z h1 h2
    simp only [int_compare] at h1 h2 ⊢
    split_ifs at h1 h2 ⊢ <;> omega

/-- C1: for every sequence of inserts and removes run from the empty map
with all allocations succeeding, the run never faults and `lookup key`
returns the value of the last insert of a key comparing equal to `key`,
or `none` if there is no such insert or a remove of that key came
later. -/
theorem lookup_follows_history (L : LawfulCmp cmp) (ops : List (Op K V))
    (key : K) :
    ∃ m, mapExec cmp ops = some m ∧
      map_lookup cmp m.root key = lastWrite cmp key ops := by
  obtain ⟨m, hex, hInv, hent⟩ := mapExec_ok L ops
  refine ⟨m, hex, ?_⟩
  obtain ⟨-, -, hsort, -⟩ := hInv
  have hbst : bstP cmp m.root := bstP_of_sorted L (by
    rw [show (keysT m.root) = (entries m.root).map Prod.fst from rfl]
    exact sortedE_iff_keys.mp hsort)
  rw [lookup_eq_lookList L hbst key, hent,
    show modelList cmp ops = ops.foldl (modelStep cmp) [] from rfl,
    lookList_model L key ops [] List.chain'_nil]
  rfl

/-- C2: after running any sequence of inserts and removes from the empty
map with all allocations succeeding, the tree satisfies the section-3
invariants: no node has two red children, no red node has a red child,
all root-to-leaf paths have one black depth, the root is black, the
in-order keys are strictly increasing, and the stored count equals the
number of nodes.  (Link/direction symmetry holds by construction of the
zipper representation.)  Every prefix of a sequence is itself a sequence,
so this covers the state after each operation. -/
theorem exec_preserves_invariants (L : LawfulCmp cmp) (ops : List (Op K V)) :
    ∃ m, mapExec cmp ops = some m ∧
      noTwoRedChildren m.root = true ∧ noRedRedEdge m.root = true ∧
      (∃ d, blackDepth m.root = some d) ∧ nodeIsBlackB m.root = true ∧
      SortedE cmp (entries m.root) ∧ m.count = node_count m.root := by
  obtain ⟨m, hex, hInv, -⟩ := mapExec_ok L ops
  obtain ⟨⟨N, hchk⟩, hblack, hsort, hcount⟩ := hInv
  obtain ⟨hbd, h2, h3⟩ := node_check_sem hchk
  exact ⟨m, hex, h2, h3, ⟨N, hbd⟩, hblack, hsort,
    by rw [node_count_eq_length]; exact hcount⟩

/-- C3: `map_check` passes exactly when the black-root, red-children,
red-red, black-depth and count invariants hold; the key-ordering
invariant is not examined, so an order violation alone is not reported. -/
theorem map_check_validates_shape_only (m : Map K V) :
    map_checkB m = true ↔
      nodeIsBlackB m.root = true ∧ (∃ d, blackDepth m.root = some d) ∧
      noTwoRedChildren m.root = true ∧ noRedRedEdge m.root = true ∧
      m.count = node_count m.root :=
  map_checkB_iff m

/-- A map whose colors, depths and count are well-formed but whose
in-order keys are out of order still passes `map_check`. -/
theorem map_check_ignores_order_cex :
    map_checkB
        (⟨.node .black 1 0 (.node .red 5 0 .nil .nil) .nil, 2⟩ :
          Map Int Int) = true ∧
      ¬ SortedE int_compare
        (entries
          (⟨.node .black 1 0 (.node .red 5 0 .nil .nil) .nil, 2⟩ :
            Map Int Int).root) := by
  constructor
  · decide
  · show ¬ SortedE int_compare [((5 : Int), (0 : Int)), (1, 0)]
    intro h
    exact absurd (List.chain'_cons.mp h).1 (by decide)

/-- C4: inserting twice under a key already present overwrites the value
in place: both inserts succeed and find the node, the final lookup gives
the second value, the count never moves, and the tree keeps its links,
colors and stored key bytes (`shapeK`), only the value bytes changing. -/
theorem insert_overwrite {m : Map K V} {key : K} {v0 : V}
    (hpres : map_lookup cmp m.root key = some v0) (v1 v2 : V) :
    ∃ m1 m2 : Map K V,
      map_insert cmp true m key v1 = some (true, m1) ∧
      map_insert cmp true m1 key v2 = some (true, m2) ∧
      map_lookup cmp m2.root key = some v2 ∧
      m1.count = m.count ∧ m2.count = m.count ∧
      shapeK m1.root = shapeK m.root ∧ shapeK m2.root = shapeK m.root := by
  obtain ⟨c, k0, v0', l, r, p, hd⟩ := found_of_lookup_some hpres
  obtain ⟨hplug, hc0, hst⟩ := descend_found_plug hd
  have hsteers : Steers cmp key p := hst (steers_nil key)
  have hplug2 : m.root = plug (.node c k0 v0' l r) p := hplug.symm
  have hd2 : descend cmp key
      (Map.mk (plug (.node c k0 v1 l r) p) m.count).root [] =
      DescRes.found c k0 v1 l r p := descend_refound hsteers hc0
  have hd3 : descend cmp key
      (Map.mk (plug (.node c k0 v2 l r) p) m.count).root [] =
      DescRes.found c k0 v2 l r p := descend_refound hsteers hc0
  refine ⟨⟨plug (.node c k0 v1 l r) p, m.count⟩,
    ⟨plug (.node c k0 v2 l r) p, m.count⟩, ?_, ?_, ?_, rfl, rfl, ?_, ?_⟩
  · rw [map_insert, hd]
  · rw [map_insert, hd2]
  · exact lookup_some_of_found hd3
  · rw [show (Map.mk (plug (.node c k0 v1 l r) p) m.count).root =
      plug (.node c k0 v1 l r) p from rfl, hplug2]
    exact shapeK_plug (show shapeK (Tree.node c k0 v1 l r) =
      shapeK (Tree.node c k0 v0' l r) from rfl) p
  · rw [show (Map.mk (plug (.node c k0 v2 l r) p) m.count).root =
      plug (.node c k0 v2 l r) p from rfl, hplug2]
    exact shapeK_plug (show shapeK (Tree.node c k0 v2 l r) =
      shapeK (Tree.node c k0 v0' l r) from rfl) p

/-- C5: when the key is absent and the node allocation fails, insert
reports failure and returns the map unchanged — same root, same
structure, same count, hence the same lookups. -/
theorem insert_alloc_failure_unchanged {m : Map K V} {key : K}
    (habs : map_lookup cmp m.root key = none) (v : V) :
    map_insert cmp false m key v = some (false, m) := by
  obtain ⟨p, hd⟩ := notFound_of_lookup_none habs
  rw [map_insert, hd]
  rfl

/-- C9: starting from a map satisfying the invariants, `map_remove` never
dereferences an absent node — in the embedding, every would-be `NULL`
sibling dereference of the rebalance loop returns `none`, and under the
invariants the call always returns `some`. -/
theorem remove_never_null_deref (L : LawfulCmp cmp) {m : Map K V}
    (hInv : Inv cmp m) (key : K) :
    ∃ r, map_remove cmp m key = some r := by
  obtain ⟨b, m', h, -, -⟩ := map_remove_main L hInv key
  exact ⟨(b, m'), h⟩

end RB23

namespace RB23

variable {K V : Type} {cmp : K → K → Int}

/-- C6: `node_rotate(B, direction)` lifts `CA = B.children[1-direction]`
into B's slot; `CA` takes B's former color, B itself takes CA's former
color, the middle grandchild `cb = CA.children[direction]` becomes B's
new `1-direction` child keeping its own color (it is moved unchanged),
and the in-order sequence is preserved.  Stated for both directions. -/
theorem rotate_recolors_root_and_pivot (bc cac : Color) (bk cak : K)
    (bv cav : V) (u cb w : Tree K V) :
    (node_rotate (.node bc bk bv u (.node cac cak cav cb w)) Dir.left =
        some (.node bc cak cav (.node cac bk bv u cb) w) ∧
      entries (.node bc cak cav (.node cac bk bv u cb) w : Tree K V) =
        entries (.node bc bk bv u (.node cac cak cav cb w) : Tree K V)) ∧
    (node_rotate (.node bc bk bv (.node cac cak cav w cb) u) Dir.right =
        some (.node bc cak cav w (.node cac bk bv cb u)) ∧
      entries (.node bc cak cav w (.node cac bk bv cb u) : Tree K V) =
        entries (.node bc bk bv (.node cac cak cav w cb) u : Tree K V)) := by
  refine ⟨⟨rfl, ?_⟩, ⟨rfl, ?_⟩⟩ <;> simp [entries, List.append_assoc]

/-- A rotation in which the middle grandchild's color differs from CA's
former color: the grandchild (key 3) stays red although CA (key 4) was
black, so it does not take on CA's former color. -/
theorem rotate_middle_child_keeps_color_cex :
    node_rotate
        (.node .black 2 0 .nil
          (.node .black 4 0 (.node .red 3 0 .nil .nil) .nil) : Tree Int Int)
        Dir.left =
      some (.node .black 4 0
        (.node .black 2 0 .nil (.node .red 3 0 .nil .nil)) .nil) ∧
    nodeIsRedB
        (childD (childD (.node .black 4 0
          (.node .black 2 0 .nil (.node .red 3 0 .nil .nil)) .nil :
            Tree Int Int) Dir.left) Dir.right) = true ∧
    nodeIsBlackB
        (childD (.node .black 2 0 .nil
          (.node .black 4 0 (.node .red 3 0 .nil .nil) .nil) : Tree Int Int)
          Dir.right) = true := by
  decide

/-- C7: in the bottom-up insert rebalance, a black parent ends the loop
with the tree rebuilt unchanged only when the sibling is also not red;
the black-parent/red-sibling case instead recolors and climbs. -/
theorem insert_fixup_black_parent_exit (k : K) (v : V) (a b : Tree K V)
    (pk : K) (pv : V) (d : Dir) (sib : Tree K V)
    (rest : List (PathEntry K V)) (hs : nodeIsRedB sib = false) :
    ins_fixup (.node .red k v a b) (⟨.black, pk, pv, d, sib⟩ :: rest) =
      some (plug (.node .red k v a b) (⟨.black, pk, pv, d, sib⟩ :: rest)) :=
  ins_fixup_break k v a b pk pv d sib rest hs

/-- With a black parent but a red sibling, the insert rebalance does not
exit: it recolors parent and children and returns a different tree. -/
theorem insert_fixup_black_parent_red_sibling_cex :
    ins_fixup (.node .red 3 0 .nil .nil : Tree Int Int)
        [⟨.black, 2, 0, .right, .node .red 1 0 .nil .nil⟩] ≠
      some (plug (.node .red 3 0 .nil .nil : Tree Int Int)
        [⟨.black, 2, 0, .right, .node .red 1 0 .nil .nil⟩]) := by
  decide

open F32 in
/-- C8: the float comparator orders `-0.0` before `+0.0`, orders NaNs by
sign bit (negative NaN below positive NaN), places a positive NaN above
and a negative NaN below every non-NaN float, and compares non-NaN
non-zero floats by their numeric value. -/
theorem float_compare_ordering :
    float_compare ⟨true, 0, 0⟩ ⟨false, 0, 0⟩ = -1 ∧
    (∀ x y : F32, isnanF x = true → x.sign = true → isnanF y = true →
      y.sign = false → float_compare x y < 0) ∧
    (∀ x y : F32, isnanF x = true → x.sign = false → isnanF y = false →
      float_compare x y > 0) ∧
    (∀ x y : F32, isnanF x = true → x.sign = true → isnanF y = false →
      float_compare x y < 0) ∧
    (∀ x y : F32, isnanF x = false → isnanF y = false → magF x ≠ 0 →
      magF y ≠ 0 →
      float_compare x y = int_compare (valF x) (valF y)) := by
  refine ⟨by decide, ?_, ?_, ?_, ?_⟩
  · intro x y hx hsx hy hsy
    norm_num [float_compare, hx, hy, F32.signbitF, hsx, hsy]
  · intro x y hx hsx hy
    norm_num [float_compare, hx, hy, F32.signbitF, hsx]
  · intro x y hx hsx hy
    norm_num [float_compare, hx, hy, F32.signbitF, hsx]
  · intro x y hx hy hmx hmy
    rw [float_compare, hx, hy]
    simp only [Bool.false_eq_true, if_false]
    rw [if_neg (fun h => hmx h.1)]
    rfl

open F32 in
/-- C10: two NaNs with the same sign bit compare equal whatever their
payload bits, so in a float-keyed map they act as one key: inserting
under a second same-signed NaN finds the node stored under the first and
overwrites its value, leaving a single entry. -/
theorem nan_same_sign_single_key (x y : F32) (hx : isnanF x = true)
    (hy : isnanF y = true) (hs : x.sign = y.sign) (v1 v2 : Int) :
    float_compare x y = 0 ∧
    ∃ m1 m2 : Map F32 Int,
      map_insert float_compare true map_new x v1 = some (true, m1) ∧
      map_insert float_compare true m1 y v2 = some (true, m2) ∧
      m2.count = 1 ∧ map_lookup float_compare m2.root x = some v2 := by
  have h0 : float_compare y x = 0 := float_compare_nan_same_sign hy hx hs.symm
  have hxx : float_compare x x = 0 := float_compare_nan_same_sign hx hx rfl
  have h1 : ¬float_compare y x < 0 := by omega
  have h2 : ¬float_compare y x > 0 := by omega
  have h3 : ¬float_compare x x < 0 := by omega
  have h4 : ¬float_compare x x > 0 := by omega
  refine ⟨float_compare_nan_same_sign hx hy hs,
    ⟨.node .black x v1 .nil .nil, 1⟩, ⟨.node .black x v2 .nil .nil, 1⟩,
    rfl, ?_, rfl, ?_⟩
  · have hd : descend float_compare y
        (Tree.node Color.black x v1 Tree.nil Tree.nil) [] =
        DescRes.found Color.black x v1 Tree.nil Tree.nil [] := by
      simp [descend, h1, h2]
    rw [map_insert,
      show (⟨Tree.node Color.black x v1 Tree.nil Tree.nil, 1⟩ :
        Map F32 Int).root = Tree.node Color.black x v1 Tree.nil Tree.nil
        from rfl, hd]
    rfl
  · show map_lookup float_compare
      (Tree.node Color.black x v2 Tree.nil Tree.nil) x = some v2
    simp [map_lookup, h3, h4]

end RB23

namespace RB23

/-- Concrete run of the history theorem: insert 2, 1, remove 2, insert 3,
then look up 2. -/
theorem lookup_follows_history_witness :
    ∃ m, mapExec int_compare
        [Op.ins (2 : Int) (20 : Int), Op.ins 1 11, Op.del 2, Op.ins 3 13] =
        some m ∧
      map_lookup int_compare m.root 2 =
        lastWrite int_compare 2
          [Op.ins (2 : Int) (20 : Int), Op.ins 1 11, Op.del 2,
            Op.ins 3 13] :=
  lookup_follows_history int_compare_lawful
    [Op.ins 2 20, Op.ins 1 11, Op.del 2, Op.ins 3 13] 2

/-- Concrete run of the invariant-preservation theorem. -/
theorem exec_preserves_invariants_witness :
    ∃ m, mapExec int_compare
        [Op.ins (2 : Int) (20 : Int), Op.ins 1 11, Op.ins 3 13, Op.del 1] =
        some m ∧
      noTwoRedChildren m.root = true ∧ noRedRedEdge m.root = true ∧
      (∃ d, blackDepth m.root = some d) ∧ nodeIsBlackB m.root = true ∧
      SortedE int_compare (entries m.root) ∧ m.count = node_count m.root :=
  exec_preserves_invariants int_compare_lawful
    [Op.ins 2 20, Op.ins 1 11, Op.ins 3 13, Op.del 1]

/-- Concrete overwrite: the singleton map at key 1 takes values 8 then 9. -/
theorem insert_overwrite_witness :
    ∃ m1 m2 : Map Int Int,
      map_insert int_compare true ⟨.node .black 1 7 .nil .nil, 1⟩ 1 8 =
        some (true, m1) ∧
      map_insert int_compare true m1 1 9 = some (true, m2) ∧
      map_lookup int_compare m2.root 1 = some 9 ∧
      m1.count = (⟨.node .black 1 7 .nil .nil, 1⟩ : Map Int Int).count ∧
      m2.count = (⟨.node .black 1 7 .nil .nil, 1⟩ : Map Int Int).count ∧
      shapeK m1.root =
        shapeK (⟨.node .black 1 7 .nil .nil, 1⟩ : Map Int Int).root ∧
      shapeK m2.root =
        shapeK (⟨.node .black 1 7 .nil .nil, 1⟩ : Map Int Int).root :=
  insert_overwrite (show map_lookup int_compare
      (⟨.node .black 1 7 .nil .nil, 1⟩ : Map Int Int).root 1 = some 7
    from by decide) 8 9

/-- Concrete failing allocation: inserting absent key 2 with a failing
allocation returns the singleton map unchanged. -/
theorem insert_alloc_failure_unchanged_witness :
    map_insert int_compare false
        (⟨.node .black 1 7 .nil .nil, 1⟩ : Map Int Int) 2 9 =
      some (false, ⟨.node .black 1 7 .nil .nil, 1⟩) :=
  insert_alloc_failure_unchanged (show map_lookup int_compare
      (⟨.node .black 1 7 .nil .nil, 1⟩ : Map Int Int).root 2 = none
    from by decide) 9

/-- Concrete exit: black parent with an absent (black) sibling leaves the
rebuilt tree unchanged. -/
theorem insert_fixup_black_parent_exit_witness :
    ins_fixup (.node .red 3 0 .nil .nil : Tree Int Int)
        [⟨.black, 2, 0, .right, .nil⟩] =
      some (plug (.node .red 3 0 .nil .nil : Tree Int Int)
        [⟨.black, 2, 0, .right, .nil⟩]) :=
  insert_fixup_black_parent_exit 3 0 .nil .nil 2 0 .right .nil [] rfl

/-- Concrete float comparisons: a negative against a positive NaN, NaNs
against `1.0`, and `2.0` against `1.0`. -/
theorem float_compare_ordering_witness :
    float_compare ⟨true, 255, 7⟩ ⟨false, 255, 9⟩ < 0 ∧
    float_compare ⟨false, 255, 3⟩ ⟨false, 127, 0⟩ > 0 ∧
    float_compare ⟨true, 255, 3⟩ ⟨false, 127, 0⟩ < 0 ∧
    float_compare ⟨false, 128, 0⟩ ⟨false, 127, 0⟩ =
      int_compare (F32.valF ⟨false, 128, 0⟩) (F32.valF ⟨false, 127, 0⟩) :=
  ⟨float_compare_ordering.2.1 ⟨true, 255, 7⟩ ⟨false, 255, 9⟩ (by decide) rfl
      (by decide) rfl,
    float_compare_ordering.2.2.1 ⟨false, 255, 3⟩ ⟨false, 127, 0⟩ (by decide)
      rfl (by decide),
    float_compare_ordering.2.2.2.1 ⟨true, 255, 3⟩ ⟨false, 127, 0⟩ (by decide)
      rfl (by decide),
    float_compare_ordering.2.2.2.2 ⟨false, 128, 0⟩ ⟨false, 127, 0⟩
      (by decide) (by decide) (by decide) (by decide)⟩

/-- Concrete removal from an invariant-satisfying (empty) map. -/
theorem remove_never_null_deref_witness :
    ∃ r, map_remove int_compare (map_new : Map Int Int) 5 = some r :=
  remove_never_null_deref int_compare_lawful inv_map_new 5

/-- Concrete same-signed NaNs with different payloads acting as one key. -/
theorem nan_same_sign_single_key_witness :
    float_compare ⟨false, 255, 1⟩ ⟨false, 255, 77⟩ = 0 ∧
    ∃ m1 m2 : Map F32 Int,
      map_insert float_compare true map_new ⟨false, 255, 1⟩ 10 =
        some (true, m1) ∧
      map_insert float_compare true m1 ⟨false, 255, 77⟩ 20 =
        some (true, m2) ∧
      m2.count = 1 ∧
      map_lookup float_compare m2.root ⟨false, 255, 1⟩ = some 20 :=
  nan_same_sign_single_key ⟨false, 255, 1⟩ ⟨false, 255, 77⟩ (by decide)
    (by decide) rfl 10 20

end RB23
